import Mathlib

/-!
Verification development for the earcut polygon triangulator of math.gl
(modules/polygon/src/earcut.ts, adapted from mapbox/earcut).

The source mutates a circular doubly linked list of vertex nodes.  We embed
it shallowly: nodes live in an arena (a `List ENode`) and the JS object
references become arena indices; every pointer assignment of the source is a
functional update of the arena, performed in the same order as the source so
that aliasing behaves identically.  JS numbers are modelled by `R`, an exact
rational type definitionally equal to `Rat` (the claims under study do not
hinge on floating-point rounding).  Every source
loop is written as a fuel-indexed recursion; the fuel supplied by the
wrappers is large enough for all well-formed runs, and exhausting it merely
stops the loop with the current state.  Reading a coordinate outside the
data array yields 0 here (JS yields NaN); all verified claims only exercise
in-range reads.  The one place where the source can throw a TypeError
(`eliminateHoles` dereferencing the `undefined` returned by `linkedList` on
an empty hole span) is modelled by propagating `none`, so the top-level
`earcut` returns `Option (List Nat)` with `none` standing for the crash.
-/

namespace EarcutModel

/-- The number type of the model: definitionally `Rat`, but with arithmetic
instances of its own (below) written through `Rat.divInt` so that every
operation unfolds during kernel evaluation (the `Rat.add`-family is
`@[irreducible]` upstream); each instance is proved equal to the `Rat`
operation it replaces. -/
def R : Type := Rat

instance : Repr R := inferInstanceAs (Repr Rat)

/-- The identity embedding of `R` into `Rat` (they are definitionally equal);
used to state and prove the bridge lemmas between the two instance sets. -/
def toRat (a : R) : Rat := a

instance : DecidableEq R := inferInstanceAs (DecidableEq Rat)

instance : LT R := inferInstanceAs (LT Rat)

instance : LE R := inferInstanceAs (LE Rat)

instance (a b : R) : Decidable (a < b) := inferInstanceAs (Decidable (toRat a < toRat b))

instance (a b : R) : Decidable (a ≤ b) := inferInstanceAs (Decidable (toRat a ≤ toRat b))

instance (n : Nat) : OfNat R n := ⟨Rat.divInt (Int.ofNat n) 1⟩

/-- Addition on `R`, unnormalised-fraction style through `Rat.divInt`. -/
def radd (a b : R) : R :=
  Rat.divInt ((a : Rat).num * (b : Rat).den + (b : Rat).num * (a : Rat).den)
    ((a : Rat).den * (b : Rat).den)

/-- Subtraction on `R` through `Rat.divInt`. -/
def rsub (a b : R) : R :=
  Rat.divInt ((a : Rat).num * (b : Rat).den - (b : Rat).num * (a : Rat).den)
    ((a : Rat).den * (b : Rat).den)

/-- Multiplication on `R` through `Rat.divInt`. -/
def rmul (a b : R) : R :=
  Rat.divInt ((a : Rat).num * (b : Rat).num) ((a : Rat).den * (b : Rat).den)

/-- Division on `R` through `Rat.divInt`; division by zero yields 0, the
convention shared by `Rat` (the source never divides by zero on the
modelled paths, every division being guarded by a nonzero test). -/
def rdiv (a b : R) : R :=
  Rat.divInt ((a : Rat).num * (b : Rat).den) ((a : Rat).den * (b : Rat).num)

instance : Add R := ⟨radd⟩

instance : Sub R := ⟨rsub⟩

instance : Mul R := ⟨rmul⟩

instance : Div R := ⟨rdiv⟩

instance : Neg R := ⟨fun a => Rat.neg a⟩

/-- JS `Math.max` on two numbers. -/
def rmax (a b : R) : R := if a < b then b else a

/-- JS `Math.min` on two numbers. -/
def rmin (a b : R) : R := if b < a then b else a

/-- JS `Math.abs`. -/
def rabs (a : R) : R := if a < 0 then -a else a

/-- One vertex node of the triangulation ring, mirroring the fields of the
source's `Node` constructor (earcut.ts lines 705-726): `i` is the vertex
offset in the flat coordinate array, `x`/`y` the coordinates, `prev`/`next`
the ring links, `z` the cached z-order curve value (`none` models JS
`null`), `prevZ`/`nextZ` the z-order chain links, and `steiner` the
steiner-point flag.  Links are arena indices instead of JS references. -/
structure ENode where
  i : Nat
  x : R
  y : R
  prev : Nat
  next : Nat
  z : Option Int
  prevZ : Option Nat
  nextZ : Option Nat
  steiner : Bool
  deriving Repr, DecidableEq

instance : Inhabited ENode := ⟨⟨0, 0, 0, 0, 0, none, none, none, false⟩⟩

/-- The node arena: every `new Node` of the source appends here, and JS
references become indices into this list. -/
abbrev Arena := List ENode

/-- Dereference an arena index (a JS node reference). -/
def nd (A : Arena) (p : Nat) : ENode := A.getD p default

/-- Update the node at an arena index (a JS field assignment). -/
def mdf (A : Arena) (p : Nat) (f : ENode → ENode) : Arena := A.set p (f (nd A p))

/-- Read the flat coordinate array at a possibly negative index.  In-range
reads match the source; out-of-range reads yield 0 (JS yields `undefined`,
i.e. NaN in arithmetic). -/
def dget (data : List R) (i : Int) : R :=
  if 0 ≤ i then data.getD i.toNat 0 else 0

/-- Signed area of a triangle, earcut.ts lines 573-576. -/
def area (p q r : ENode) : R :=
  (q.y - p.y) * (r.x - q.x) - (q.x - p.x) * (r.y - q.y)

/-- Coincidence test of two nodes, earcut.ts lines 578-581. -/
def equals (p1 p2 : ENode) : Bool :=
  decide (p1.x = p2.x) && decide (p1.y = p2.y)

/-- Inclusive point-in-triangle test, earcut.ts lines 550-557.  The source
parameter `by` is renamed `b2` because `by` is a Lean keyword. -/
def pointInTriangle (ax ay bx b2 cx cy px py : R) : Bool :=
  decide (0 ≤ (cx - px) * (ay - py) - (ax - px) * (cy - py)) &&
  decide (0 ≤ (ax - px) * (b2 - py) - (bx - px) * (ay - py)) &&
  decide (0 ≤ (bx - px) * (cy - py) - (cx - px) * (b2 - py))

/-- Sign of a number, earcut.ts lines 610-612. -/
def sign (num : R) : Int :=
  if 0 < num then 1 else if num < 0 then -1 else 0

/-- For collinear p, q, r, whether q lies on segment pr; earcut.ts 600-608. -/
def onSegment (p q r : ENode) : Bool :=
  decide (q.x ≤ rmax p.x r.x) && decide (rmin p.x r.x ≤ q.x) &&
  decide (q.y ≤ rmax p.y r.y) && decide (rmin p.y r.y ≤ q.y)

/-- Segment intersection test, earcut.ts lines 583-598. -/
def intersects (p1 q1 p2 q2 : ENode) : Bool :=
  let o1 := sign (area p1 q1 p2)
  let o2 := sign (area p1 q1 q2)
  let o3 := sign (area p2 q2 p1)
  let o4 := sign (area p2 q2 q1)
  if o1 ≠ o2 && o3 ≠ o4 then true
  else if o1 = 0 && onSegment p1 p2 q1 then true
  else if o2 = 0 && onSegment p1 q2 q1 then true
  else if o3 = 0 && onSegment p2 p1 q2 then true
  else if o4 = 0 && onSegment p2 q1 q2 then true
  else false

/-- Local interior-cone test for a diagonal endpoint, earcut.ts 632-637. -/
def locallyInside (A : Arena) (a b : Nat) : Bool :=
  let an := nd A a
  let bn := nd A b
  if area (nd A an.prev) an (nd A an.next) < 0 then
    decide (0 ≤ area an bn (nd A an.next)) && decide (0 ≤ area an (nd A an.prev) bn)
  else
    decide (area an bn (nd A an.prev) < 0) || decide (area an (nd A an.next) bn < 0)

/-- Whether the vertex sector at m contains the sector at p; earcut.ts 440-443. -/
def sectorContainsSector (A : Arena) (m p : Nat) : Bool :=
  decide (area (nd A (nd A m).prev) (nd A m) (nd A (nd A p).prev) < 0) &&
  decide (area (nd A (nd A p).next) (nd A m) (nd A (nd A m).next) < 0)

/-- Loop body of `intersectsPolygon` (earcut.ts 614-630), one fuel per ring
step of the do-while over `p`. -/
def intersectsPolygonGo (A : Arena) (a b : Nat) : Nat → Nat → Bool
  | 0, _ => false
  | fuel+1, p =>
    let pN := nd A p
    let pn := nd A pN.next
    if (pN.i ≠ (nd A a).i && pn.i ≠ (nd A a).i &&
        pN.i ≠ (nd A b).i && pn.i ≠ (nd A b).i &&
        intersects pN pn (nd A a) (nd A b)) then true
    else if pN.next = a then false
    else intersectsPolygonGo A a b fuel pN.next

/-- Whether the diagonal a-b crosses any ring edge, earcut.ts 614-630. -/
def intersectsPolygon (A : Arena) (a b : Nat) : Bool :=
  intersectsPolygonGo A a b (A.length + 1) a

/-- Loop body of `middleInside` (earcut.ts 639-656): horizontal ray-crossing
parity walk around the ring. -/
def middleInsideGo (A : Arena) (a : Nat) (px py : R) : Nat → Nat → Bool → Bool
  | 0, _, inside => inside
  | fuel+1, p, inside =>
    let pN := nd A p
    let pn := nd A pN.next
    let inside1 :=
      if (decide (py < pN.y) != decide (py < pn.y)) && decide (pn.y ≠ pN.y) &&
         decide (px < (pn.x - pN.x) * (py - pN.y) / (pn.y - pN.y) + pN.x)
      then !inside else inside
    if pN.next = a then inside1
    else middleInsideGo A a px py fuel pN.next inside1

/-- Whether the midpoint of diagonal a-b is inside the polygon; earcut.ts 639-656. -/
def middleInside (A : Arena) (a b : Nat) : Bool :=
  middleInsideGo A a (((nd A a).x + (nd A b).x) / 2) (((nd A a).y + (nd A b).y) / 2)
    (A.length + 1) a false

/-- Diagonal validity test, earcut.ts 559-571.  The JS truthiness of
`area(...) || area(...)` is the disjunction of the two values being
nonzero. -/
def isValidDiagonal (A : Arena) (a b : Nat) : Bool :=
  let an := nd A a
  let bn := nd A b
  decide ((nd A an.next).i ≠ bn.i) && decide ((nd A an.prev).i ≠ bn.i) &&
  !intersectsPolygon A a b &&
  ((locallyInside A a b && locallyInside A b a && middleInside A a b &&
      (decide (area (nd A an.prev) an (nd A bn.prev) ≠ 0) ||
       decide (area an (nd A bn.prev) bn ≠ 0))) ||
   (equals an bn && decide (0 < area (nd A an.prev) an (nd A an.next)) &&
      decide (0 < area (nd A bn.prev) bn (nd A bn.next))))

/-- JS number-to-integer truncation (toward zero), as performed by ToInt32. -/
def jsTrunc (q : R) : Int := if 0 ≤ q then Rat.floor q else -(Rat.floor (-q))

/-- The unsigned 32-bit pattern of a JS number after ToInt32. -/
def toUint32 (q : R) : Nat := ((jsTrunc q) % (4294967296 : Int)).toNat

/-- Reduce a natural to its unsigned 32-bit pattern. -/
def u32 (n : Nat) : Nat := n % 4294967296

/-- Reinterpret an unsigned 32-bit pattern as a signed JS Int32. -/
def int32OfUint32 (n : Nat) : Int :=
  if n < 2147483648 then (n : Int) else (n : Int) - 4294967296

/-- Interleave the low 16 bits of a 32-bit pattern, one half of the Morton
pipeline of earcut.ts 519-536. -/
def mortonSpread (n : Nat) : Nat :=
  let a := (u32 (n <<< 8) ||| n) &&& 0x00ff00ff
  let b := (u32 (a <<< 4) ||| a) &&& 0x0f0f0f0f
  let c := (u32 (b <<< 2) ||| b) &&& 0x33333333
  (u32 (c <<< 1) ||| c) &&& 0x55555555

/-- Z-order (Morton) key of a point, earcut.ts 519-536; the result is the
signed Int32 the JS bitwise pipeline produces. -/
def zOrder (x0 y0 minX minY invSize : R) : Int :=
  let xu := mortonSpread (toUint32 (32767 * (x0 - minX) * invSize))
  let yu := mortonSpread (toUint32 (32767 * (y0 - minY) * invSize))
  int32OfUint32 (xu ||| (u32 (yu <<< 1)))

/-- The z value of a node as JS comparisons see it: `null` compares as 0. -/
def zval (A : Arena) (p : Nat) : Int := ((nd A p).z).getD 0

/-- Create a node and link it after `last`, earcut.ts 681-695.  Returns the
grown arena and the new node's index. -/
def insertNode (i : Nat) (x y : R) (last : Option Nat) (A : Arena) : Arena × Nat :=
  let p := A.length
  match last with
  | none =>
    (A ++ [{ i := i, x := x, y := y, prev := p, next := p,
             z := none, prevZ := none, nextZ := none, steiner := false }], p)
  | some l =>
    let ln := (nd A l).next
    let A1 := A ++ [{ i := i, x := x, y := y, prev := l, next := ln,
                      z := none, prevZ := none, nextZ := none, steiner := false }]
    let A2 := mdf A1 ln (fun n => { n with prev := p })
    let A3 := mdf A2 l (fun n => { n with next := p })
    (A3, p)

/-- Unlink a node from both the ring and the z chain, earcut.ts 697-703. -/
def removeNode (A : Arena) (p : Nat) : Arena :=
  let pN := nd A p
  let A1 := mdf A pN.next (fun n => { n with prev := pN.prev })
  let A2 := mdf A1 pN.prev (fun n => { n with next := pN.next })
  let A3 := match pN.prevZ with
    | some q => mdf A2 q (fun n => { n with nextZ := pN.nextZ })
    | none => A2
  match pN.nextZ with
  | some q => mdf A3 q (fun n => { n with prevZ := pN.prevZ })
  | none => A3

/-- Bridge two vertices with duplicated nodes, splitting or merging rings;
earcut.ts 658-679.  Returns the arena and the duplicate of b. -/
def splitPolygon (A : Arena) (a b : Nat) : Arena × Nat :=
  let aN := nd A a
  let bN := nd A b
  let an := aN.next
  let bp := bN.prev
  let a2 := A.length
  let b2 := A.length + 1
  let A1 := A ++
    [{ i := aN.i, x := aN.x, y := aN.y, prev := a2, next := a2,
       z := none, prevZ := none, nextZ := none, steiner := false },
     { i := bN.i, x := bN.x, y := bN.y, prev := b2, next := b2,
       z := none, prevZ := none, nextZ := none, steiner := false }]
  let A2 := mdf A1 a (fun n => { n with next := b })
  let A3 := mdf A2 b (fun n => { n with prev := a })
  let A4 := mdf A3 a2 (fun n => { n with next := an })
  let A5 := mdf A4 an (fun n => { n with prev := a2 })
  let A6 := mdf A5 b2 (fun n => { n with next := a2 })
  let A7 := mdf A6 a2 (fun n => { n with prev := b2 })
  let A8 := mdf A7 bp (fun n => { n with next := b2 })
  let A9 := mdf A8 b2 (fun n => { n with prev := bp })
  (A9, b2)

/-- Modelled from the spec: the repository's `getPolygonSignedArea`
(modules/polygon/src/polygon-utils.ts) is imported by earcut.ts but is not
under src/.  Spec section 6 requires a signed polygon area over the span
(start, end, stride) whose sign encodes winding, and the source comment at
earcut.ts 93-95 records that math.gl's sign convention is the opposite of
upstream earcut's `signedArea`; accordingly this is the shoelace sum
Σ (x_i − x_j)(y_i + y_j) / 2 over consecutive span vertices (j trailing i),
which is negative for counter-clockwise input.  Loop body, one fuel per
vertex. -/
def getPolygonSignedAreaGo (data : List R) (dim : Nat) (e : Int) :
    Nat → Int → Int → R → R
  | 0, _, _, acc => acc
  | fuel+1, i, j, acc =>
    if i < e then
      getPolygonSignedAreaGo data dim e fuel (i + dim) i
        (acc + (dget data i - dget data j) * (dget data (i+1) + dget data (j+1)))
    else acc

/-- Modelled from the spec: signed area of the span [start, e) of the flat
coordinate array with stride `dim`; see `getPolygonSignedAreaGo`. -/
def getPolygonSignedArea (data : List R) (start e : Int) (dim : Nat) : R :=
  getPolygonSignedAreaGo data dim e ((e - start).toNat + 1) start (e - dim) 0 / 2

/-- Forward insertion loop of `linkedList` (earcut.ts 97), one fuel per
vertex: `for (i = start; i < end; i += dim) last = insertNode(...)`. -/
def insertFwdGo (data : List R) (dim : Nat) (e : Int) :
    Nat → Int → Option Nat → Arena → Arena × Option Nat
  | 0, _, last, A => (A, last)
  | fuel+1, i, last, A =>
    if i < e then
      let r := insertNode i.toNat (dget data i) (dget data (i+1)) last A
      insertFwdGo data dim e fuel (i + dim) (some r.2) r.1
    else (A, last)

/-- Reverse insertion loop of `linkedList` (earcut.ts 99):
`for (i = end - dim; i >= start; i -= dim) last = insertNode(...)`. -/
def insertRevGo (data : List R) (dim : Nat) (s : Int) :
    Nat → Int → Option Nat → Arena → Arena × Option Nat
  | 0, _, last, A => (A, last)
  | fuel+1, i, last, A =>
    if s ≤ i then
      let r := insertNode i.toNat (dget data i) (dget data (i+1)) last A
      insertRevGo data dim s fuel (i - dim) (some r.2) r.1
    else (A, last)

/-- Build a circular ring from the span [start, e), earcut.ts 85-108: insert
forward when the desired winding flag equals (area < 0), in reverse
otherwise, then drop the last node if it coincides with the first. -/
def linkedList (data : List R) (start e : Int) (dim : Nat) (clockwise : Bool)
    (areaOpt : Option R) (A : Arena) : Arena × Option Nat :=
  let ar : R := match areaOpt with
    | none => getPolygonSignedArea data start e dim
    | some v => v
  let r := if clockwise = decide (ar < 0)
    then insertFwdGo data dim e ((e - start).toNat + 1) start none A
    else insertRevGo data dim start ((e - start).toNat + 1) (e - dim) none A
  match r.2 with
  | none => (r.1, none)
  | some last =>
    if equals (nd r.1 last) (nd r.1 (nd r.1 last).next) then
      let A2 := removeNode r.1 last
      (A2, some ((nd A2 last).next))
    else (r.1, some last)

/-- Loop body of `filterPoints` (earcut.ts 110-131), one fuel per visited
node: remove duplicate or collinear non-steiner points until a full cycle
makes no change, breaking out if the ring collapses to one node. -/
def filterPointsGo : Nat → Arena → Nat → Nat → Arena × Nat
  | 0, A, _, e => (A, e)
  | fuel+1, A, p, e =>
    let pN := nd A p
    if (!pN.steiner) && (equals pN (nd A pN.next) ||
        decide (area (nd A pN.prev) pN (nd A pN.next) = 0)) then
      let A1 := removeNode A p
      let p1 := (nd A1 p).prev
      if p1 = (nd A1 p1).next then (A1, p1)
      else filterPointsGo fuel A1 p1 p1
    else
      if pN.next = e then (A, e)
      else filterPointsGo fuel A pN.next e

/-- Remove colinear or duplicate ring points, earcut.ts 110-131. -/
def filterPoints (A : Arena) (start e : Option Nat) : Arena × Option Nat :=
  match start with
  | none => (A, none)
  | some s =>
    let e0 := match e with
      | none => s
      | some x => x
    let r := filterPointsGo ((A.length + 1) * (A.length + 1)) A s e0
    (r.1, some r.2)

/-- Scan loop of `isEar` (earcut.ts 196-202): walk from `ear.next.next` and
stop at `ear.prev`, one fuel per node; a contained reflex-or-collinear
vertex invalidates the ear. -/
def isEarGo (A : Arena) (a b c : ENode) (stop : Nat) : Nat → Nat → Bool
  | 0, _ => true
  | fuel+1, p =>
    if p = stop then true
    else
      let pN := nd A p
      if pointInTriangle a.x a.y b.x b.y c.x c.y pN.x pN.y &&
         decide (0 ≤ area (nd A pN.prev) pN (nd A pN.next)) then false
      else isEarGo A a b c stop fuel pN.next

/-- Plain ear validity test, earcut.ts 187-205. -/
def isEar (A : Arena) (ear : Nat) : Bool :=
  let b := nd A ear
  let a := nd A b.prev
  let c := nd A b.next
  if 0 ≤ area a b c then false
  else isEarGo A a b c b.prev (A.length + 1) (nd A b.next).next

/-- Blocking test shared by the three z-chain scan loops of `isEarHashed`:
the candidate must differ from ear's neighbours, lie in the triangle, and be
reflex or collinear. -/
def hashedBlocked (A : Arena) (earPrev earNext : Nat) (a b c : ENode) (p : Nat) : Bool :=
  let pN := nd A p
  p ≠ earPrev && p ≠ earNext &&
  pointInTriangle a.x a.y b.x b.y c.x c.y pN.x pN.y &&
  decide (0 ≤ area (nd A pN.prev) pN (nd A pN.next))

/-- Second scan of `isEarHashed` (earcut.ts 248-258): remaining nodes in
decreasing z-order. -/
def isEarHashedP (A : Arena) (earPrev earNext : Nat) (a b c : ENode) (minZ : Int) :
    Nat → Option Nat → Bool
  | 0, _ => true
  | fuel+1, pO =>
    match pO with
    | none => true
    | some p =>
      if minZ ≤ zval A p then
        if hashedBlocked A earPrev earNext a b c p then false
        else isEarHashedP A earPrev earNext a b c minZ fuel ((nd A p).prevZ)
      else true

/-- Third scan of `isEarHashed` (earcut.ts 260-270): remaining nodes in
increasing z-order. -/
def isEarHashedN (A : Arena) (earPrev earNext : Nat) (a b c : ENode) (maxZ : Int) :
    Nat → Option Nat → Bool
  | 0, _ => true
  | fuel+1, nO =>
    match nO with
    | none => true
    | some n =>
      if zval A n ≤ maxZ then
        if hashedBlocked A earPrev earNext a b c n then false
        else isEarHashedN A earPrev earNext a b c maxZ fuel ((nd A n).nextZ)
      else true

/-- First scan of `isEarHashed` (earcut.ts 224-246): walk outward in both
z directions while both ends stay within the triangle's z range, then fall
through to the one-sided scans. -/
def isEarHashedPass (A : Arena) (earPrev earNext : Nat) (a b c : ENode)
    (minZ maxZ : Int) : Nat → Option Nat → Option Nat → Bool
  | 0, _, _ => true
  | fuel+1, pO, nO =>
    match pO, nO with
    | some p, some n =>
      if minZ ≤ zval A p && zval A n ≤ maxZ then
        if hashedBlocked A earPrev earNext a b c p then false
        else
          let p1 := (nd A p).prevZ
          if hashedBlocked A earPrev earNext a b c n then false
          else isEarHashedPass A earPrev earNext a b c minZ maxZ fuel p1 ((nd A n).nextZ)
      else
        isEarHashedP A earPrev earNext a b c minZ (A.length + 1) pO &&
        isEarHashedN A earPrev earNext a b c maxZ (A.length + 1) nO
    | _, _ =>
      isEarHashedP A earPrev earNext a b c minZ (A.length + 1) pO &&
      isEarHashedN A earPrev earNext a b c maxZ (A.length + 1) nO

/-- Z-indexed ear validity test, earcut.ts 207-273. -/
def isEarHashed (A : Arena) (ear : Nat) (minX minY invSize : R) : Bool :=
  let b := nd A ear
  let a := nd A b.prev
  let c := nd A b.next
  if 0 ≤ area a b c then false
  else
    let minTX := if a.x < b.x then (if a.x < c.x then a.x else c.x)
                 else (if b.x < c.x then b.x else c.x)
    let minTY := if a.y < b.y then (if a.y < c.y then a.y else c.y)
                 else (if b.y < c.y then b.y else c.y)
    let maxTX := if a.x > b.x then (if a.x > c.x then a.x else c.x)
                 else (if b.x > c.x then b.x else c.x)
    let maxTY := if a.y > b.y then (if a.y > c.y then a.y else c.y)
                 else (if b.y > c.y then b.y else c.y)
    let minZ := zOrder minTX minTY minX minY invSize
    let maxZ := zOrder maxTX maxTY minX minY invSize
    isEarHashedPass A b.prev b.next a b c minZ maxZ (A.length + 1) b.prevZ b.nextZ

/-- Loop body of `cureLocalIntersections` (earcut.ts 275-302), one fuel per
visited node: cut out a locally intersecting pair as one triangle. -/
def cureLocalGo (dim : Nat) : Nat → Arena → Nat → Nat → List Nat → Arena × Nat × List Nat
  | 0, A, p, _, tris => (A, p, tris)
  | fuel+1, A, p, start, tris =>
    let aI := (nd A p).prev
    let bI := (nd A (nd A p).next).next
    if (!equals (nd A aI) (nd A bI)) &&
       intersects (nd A aI) (nd A p) (nd A (nd A p).next) (nd A bI) &&
       locallyInside A aI bI && locallyInside A bI aI then
      let tris1 := tris ++ [(nd A aI).i / dim, (nd A p).i / dim, (nd A bI).i / dim]
      let A1 := removeNode A p
      let A2 := removeNode A1 ((nd A1 p).next)
      let p1 := (nd A2 bI).next
      if p1 = bI then (A2, bI, tris1)
      else cureLocalGo dim fuel A2 p1 bI tris1
    else
      let p1 := (nd A p).next
      if p1 = start then (A, start, tris)
      else cureLocalGo dim fuel A p1 start tris

/-- Cure small local self-intersections, earcut.ts 275-302; emits one
triangle per cured pair and finishes with a `filterPoints` sweep. -/
def cureLocalIntersections (A : Arena) (start : Nat) (tris : List Nat) (dim : Nat) :
    Arena × Option Nat × List Nat :=
  let r := cureLocalGo dim ((A.length + 1) * (A.length + 1)) A start start tris
  let f := filterPoints r.1 (some r.2.1) none
  (f.1, f.2, r.2.2)

/-- Loop body of `getLeftmost` (earcut.ts 538-548). -/
def getLeftmostGo (A : Arena) (start : Nat) : Nat → Nat → Nat → Nat
  | 0, _, lm => lm
  | fuel+1, p, lm =>
    let lm1 := if decide ((nd A p).x < (nd A lm).x) ||
        (decide ((nd A p).x = (nd A lm).x) && decide ((nd A p).y < (nd A lm).y))
      then p else lm
    let p1 := (nd A p).next
    if p1 = start then lm1 else getLeftmostGo A start fuel p1 lm1

/-- Leftmost (then lowest) node of a ring, earcut.ts 538-548. -/
def getLeftmost (A : Arena) (start : Nat) : Nat :=
  getLeftmostGo A start (A.length + 1) start start

/-- First loop of `findHoleBridge` (earcut.ts 382-397): ray-cast leftward
from the hole anchor; `Sum.inl` carries the source's early returns, and the
`Option R` models `qx` starting at -Infinity. -/
def findHoleBridgeGo1 (A : Arena) (outer : Nat) (hx hy : R) :
    Nat → Nat → Option R → Option Nat → Sum Nat (Option R × Option Nat)
  | 0, _, qx, m => Sum.inr (qx, m)
  | fuel+1, p, qx, m =>
    let pN := nd A p
    let pn := nd A pN.next
    if hy ≤ pN.y && pn.y ≤ hy && decide (pn.y ≠ pN.y) then
      let x := pN.x + (hy - pN.y) * (pn.x - pN.x) / (pn.y - pN.y)
      if x ≤ hx && (match qx with
          | none => true
          | some q => decide (q < x)) then
        if decide (x = hx) && decide (hy = pN.y) then Sum.inl p
        else if decide (x = hx) && decide (hy = pn.y) then Sum.inl pN.next
        else
          let m1 := some (if pN.x < pn.x then p else pN.next)
          if pN.next = outer then Sum.inr (some x, m1)
          else findHoleBridgeGo1 A outer hx hy fuel pN.next (some x) m1
      else
        if pN.next = outer then Sum.inr (qx, m)
        else findHoleBridgeGo1 A outer hx hy fuel pN.next qx m
    else
      if pN.next = outer then Sum.inr (qx, m)
      else findHoleBridgeGo1 A outer hx hy fuel pN.next qx m

/-- Second loop of `findHoleBridge` (earcut.ts 407-437): among points inside
the candidate triangle choose the connection of minimal tangent, breaking
ties by larger x then by sector containment; the `Option R` models
`tanMin` starting at Infinity. -/
def findHoleBridgeGo2 (A : Arena) (hole : Nat) (hx hy qx mx my : R) (stop : Nat) :
    Nat → Nat → Option R → Nat → Nat
  | 0, _, _, m => m
  | fuel+1, p, tanMin, m =>
    let pN := nd A p
    let (tanMin1, m1) :=
      if pN.x ≤ hx && mx ≤ pN.x && decide (hx ≠ pN.x) &&
         pointInTriangle (if hy < my then hx else qx) hy mx my
           (if hy < my then qx else hx) hy pN.x pN.y then
        let tan := rabs (hy - pN.y) / (hx - pN.x)
        if locallyInside A p hole &&
           ((match tanMin with
             | none => true
             | some t => decide (tan < t)) ||
            ((match tanMin with
              | none => false
              | some t => decide (tan = t)) &&
             (decide ((nd A m).x < pN.x) ||
              (decide (pN.x = (nd A m).x) && sectorContainsSector A m p)))) then
          (some tan, p)
        else (tanMin, m)
      else (tanMin, m)
    if pN.next = stop then m1
    else findHoleBridgeGo2 A hole hx hy qx mx my stop fuel pN.next tanMin1 m1

/-- David Eberly's hole-bridge search, earcut.ts 374-438. -/
def findHoleBridge (A : Arena) (hole outerNode : Nat) : Option Nat :=
  let hx := (nd A hole).x
  let hy := (nd A hole).y
  match findHoleBridgeGo1 A outerNode hx hy (A.length + 1) outerNode none none with
  | Sum.inl r => some r
  | Sum.inr (qxO, mO) =>
    match mO with
    | none => none
    | some m =>
      match qxO with
      | none => none
      | some qx =>
        if hx = qx then some m
        else
          some (findHoleBridgeGo2 A hole hx hy qx ((nd A m).x) ((nd A m).y) m
            (A.length + 1) m none m)

/-- Bridge one hole into the outer ring, earcut.ts 362-372. -/
def eliminateHole (A : Arena) (hole outerNode : Nat) : Arena :=
  match findHoleBridge A hole outerNode with
  | none => A
  | some onode =>
    let s := splitPolygon A onode hole
    let f1 := filterPoints s.1 (some onode) (some ((nd s.1 onode).next))
    let f2 := filterPoints f1.1 (some s.2) (some ((nd f1.1 s.2).next))
    f2.1

/-- Hole-ring construction loop of `eliminateHoles` (earcut.ts 339-345):
build one clockwise ring per hole span, mark single-point holes steiner,
and queue each ring's leftmost node.  `none` models the TypeError the
source throws when a hole span is empty and `linkedList` returns
`undefined`. -/
def eliminateHolesBuild (data : List R) (dim : Nat) (areas : Option (List R)) :
    List Nat → Nat → Arena → List Nat → Option (Arena × List Nat)
  | [], _, A, q => some (A, q)
  | h :: rest, ordinal, A, q =>
    let start : Int := (h : Int) * dim
    let e : Int := match rest with
      | h2 :: _ => (h2 : Int) * dim
      | [] => (data.length : Int)
    let r := linkedList data start e dim false (areas.bind (fun l => l.get? (ordinal + 1))) A
    match r.2 with
    | none => none
    | some listI =>
      let A1 := if (nd r.1 listI).next = listI
        then mdf r.1 listI (fun n => { n with steiner := true })
        else r.1
      eliminateHolesBuild data dim areas rest (ordinal + 1) A1 (q ++ [getLeftmost A1 listI])

/-- Left-to-right hole processing loop of `eliminateHoles` (earcut.ts
350-353): bridge each queued hole, then re-filter around the outer node. -/
def eliminateHolesProcess : List Nat → Arena → Nat → Arena × Nat
  | [], A, o => (A, o)
  | h :: rest, A, o =>
    let A1 := eliminateHole A h o
    let f := filterPoints A1 (some o) (some ((nd A1 o).next))
    match f.2 with
    | none => eliminateHolesProcess rest f.1 o
    | some o1 => eliminateHolesProcess rest f.1 o1

/-- Stable insertion of one element into a sorted list: the new element goes
after every existing element the comparator puts at or below it. -/
def insertSorted (le : Nat → Nat → Bool) (x : Nat) : List Nat → List Nat
  | [] => [x]
  | y :: ys => if le y x then y :: insertSorted le x ys else x :: y :: ys

/-- Stable sort of the hole queue by the comparator, modelling the source's
stable `Array.sort(compareX)` (earcut.ts 347 and 358-360): ascending x,
ties keeping insertion order. -/
def stableSortGo (le : Nat → Nat → Bool) : List Nat → List Nat → List Nat
  | acc, [] => acc
  | acc, x :: xs => stableSortGo le (insertSorted le x acc) xs

/-- Link every hole into the outer ring, earcut.ts 330-356. -/
def eliminateHoles (data : List R) (holeIndices : List Nat) (outerNode : Nat)
    (dim : Nat) (areas : Option (List R)) (A : Arena) : Option (Arena × Nat) :=
  match eliminateHolesBuild data dim areas holeIndices 0 A [] with
  | none => none
  | some (A1, queue) =>
    let sorted := stableSortGo (fun a b => decide ((nd A1 a).x ≤ (nd A1 b).x)) [] queue
    some (eliminateHolesProcess sorted A1 outerNode)

/-- Ring walk of `indexCurve` (earcut.ts 446-453): assign missing z keys and
seed the z chain with the ring order. -/
def indexCurveGo (start : Nat) (minX minY invSize : R) : Nat → Arena → Nat → Arena
  | 0, A, _ => A
  | fuel+1, A, p =>
    let A1 := if (nd A p).z = none
      then mdf A p (fun n => { n with z := some (zOrder n.x n.y minX minY invSize) })
      else A
    let A2 := mdf A1 p (fun n => { n with prevZ := some n.prev, nextZ := some n.next })
    let p1 := (nd A2 p).next
    if p1 = start then A2 else indexCurveGo start minX minY invSize fuel A2 p1

/-- Forward seek of Simon Tatham's merge sort (earcut.ts 484-488): advance q
up to inSize steps, counting pSize. -/
def sortSeek (A : Arena) : Nat → Nat → Nat → Nat × Option Nat
  | 0, q, pSize => (pSize, some q)
  | cnt+1, q, pSize =>
    match (nd A q).nextZ with
    | none => (pSize + 1, none)
    | some q1 => sortSeek A cnt q1 (pSize + 1)

/-- Merge step of Tatham's sort (earcut.ts 491-507): splice the smaller head
of the two sublists onto the tail.  Returns the arena and the new list
head, tail and leftover q. -/
def sortMergeGo : Nat → Arena → Option Nat → Nat → Option Nat → Nat →
    Option Nat → Option Nat → Arena × Option Nat × Option Nat × Option Nat
  | 0, A, _, _, qO, _, tail, list => (A, list, tail, qO)
  | fuel+1, A, pO, pSize, qO, qSize, tail, list =>
    if pSize > 0 || (qSize > 0 && qO.isSome) then
      let takeP := pSize ≠ 0 && (qSize = 0 || qO.isNone ||
        (match pO, qO with
         | some p, some q => decide (zval A p ≤ zval A q)
         | _, _ => true))
      let e := if takeP then pO.getD 0 else qO.getD 0
      let pO1 := if takeP then pO.bind (fun p => (nd A p).nextZ) else pO
      let pSize1 := if takeP then pSize - 1 else pSize
      let qO1 := if takeP then qO else qO.bind (fun q => (nd A q).nextZ)
      let qSize1 := if takeP then qSize else qSize - 1
      let A1 := match tail with
        | some t => mdf A t (fun n => { n with nextZ := some e })
        | none => A
      let list1 := match tail with
        | some _ => list
        | none => some e
      let A2 := mdf A1 e (fun n => { n with prevZ := tail })
      sortMergeGo fuel A2 pO1 pSize1 qO1 qSize1 (some e) list1
    else (A, list, tail, qO)

/-- One full pass of Tatham's sort over the chain (earcut.ts 480-510). -/
def sortPassGo (inSize : Nat) : Nat → Arena → Option Nat → Option Nat → Option Nat →
    Nat → Arena × Option Nat × Option Nat × Nat
  | 0, A, _, tail, list, nm => (A, list, tail, nm)
  | fuel+1, A, pO, tail, list, nm =>
    match pO with
    | none => (A, list, tail, nm)
    | some p =>
      let s := sortSeek A inSize p 0
      let r := sortMergeGo (s.1 + inSize + 1) A (some p) s.1 s.2 inSize tail list
      sortPassGo inSize fuel r.1 r.2.2.2 r.2.2.1 r.2.1 (nm + 1)

/-- Outer doubling loop of Tatham's sort (earcut.ts 461-517). -/
def sortLinkedGo : Nat → Arena → Option Nat → Nat → Arena × Option Nat
  | 0, A, list, _ => (A, list)
  | fuel+1, A, list, inSize =>
    let r := sortPassGo inSize (A.length + 1) A list none none 0
    let A1 := match r.2.2.1 with
      | some t => mdf r.1 t (fun n => { n with nextZ := none })
      | none => r.1
    if r.2.2.2 > 1 then sortLinkedGo fuel A1 r.2.1 (inSize * 2)
    else (A1, r.2.1)

/-- Simon Tatham's linked-list merge sort on the z chain, earcut.ts 461-517. -/
def sortLinked (A : Arena) (list : Nat) : Arena × Option Nat :=
  sortLinkedGo (A.length + 2) A (some list) 1

/-- Interlink the ring in z-order, earcut.ts 445-459: seed z keys and chain
links, cut the chain open at `start`, and sort it. -/
def indexCurve (A : Arena) (start : Nat) (minX minY invSize : R) : Arena :=
  let A1 := indexCurveGo start minX minY invSize (A.length + 1) A start
  let A2 := match (nd A1 start).prevZ with
    | some q => mdf A1 q (fun n => { n with nextZ := none })
    | none => A1
  let A3 := mdf A2 start (fun n => { n with prevZ := none })
  (sortLinked A3 start).1

/-- Truthiness of the source's `invSize` at the guards of earcut.ts 138 and
149: `undefined` and 0 are both falsy. -/
def zpTruthy (zp : Option (R × R × R)) : Bool :=
  match zp with
  | some (_, _, inv) => decide (inv ≠ 0)
  | none => false

/-- One pending activation of the mutually recursive control flow of
`earcutLinked` and `splitEarcut` (earcut.ts 134-185 and 304-328).  The
source's recursion is defunctionalized into an explicit call stack so that
the step function below is a single structural recursion on its fuel (and
therefore computes by kernel reduction): `enter` is a call of
`earcutLinked(ear, ..., pass)`, `loop` an iteration of its while loop with
the current `ear` and `stop`, `split` a call of `splitEarcut`, and
`splitLoop` an iteration of its double scan with outer cursor `a`, inner
cursor `b` and terminator `start`. -/
inductive ECall where
  | enter (earO : Option Nat) (pass : Nat)
  | loop (ear stop : Nat) (pass : Nat)
  | split (start : Nat)
  | splitLoop (a b start : Nat)
  deriving Repr, DecidableEq

/-- The ear-clipping engine: one fuel per iteration or call, executing the
call stack left to right; the arena and triangle list thread through
exactly as the source's shared mutable state does.  Each alternative is a
line-by-line translation of the corresponding source region named in
`ECall`. -/
def engineGo (dim : Nat) (zp : Option (R × R × R)) :
    Nat → List ECall → Arena → List Nat → Arena × List Nat
  | 0, _, A, tris => (A, tris)
  | _+1, [], A, tris => (A, tris)
  | fuel+1, ECall.enter earO pass :: rest, A, tris =>
    (match earO with
     | none => engineGo dim zp fuel rest A tris
     | some ear =>
       let A1 := if pass = 0 && zpTruthy zp then
           match zp with
           | some (mnx, mny, inv) => indexCurve A ear mnx mny inv
           | none => A
         else A
       engineGo dim zp fuel (ECall.loop ear ear pass :: rest) A1 tris)
  | fuel+1, ECall.loop ear stop pass :: rest, A, tris =>
    if (nd A ear).prev = (nd A ear).next then engineGo dim zp fuel rest A tris
    else
      let prevI := (nd A ear).prev
      let nextI := (nd A ear).next
      let earOk := match zp with
        | some (mnx, mny, inv) =>
          if decide (inv ≠ 0) then isEarHashed A ear mnx mny inv else isEar A ear
        | none => isEar A ear
      if earOk then
        let tris1 := tris ++ [(nd A prevI).i / dim, (nd A ear).i / dim, (nd A nextI).i / dim]
        let A1 := removeNode A ear
        let e1 := (nd A1 nextI).next
        engineGo dim zp fuel (ECall.loop e1 e1 pass :: rest) A1 tris1
      else
        if nextI = stop then
          if pass = 0 then
            let f := filterPoints A (some nextI) none
            engineGo dim zp fuel (ECall.enter f.2 1 :: rest) f.1 tris
          else if pass = 1 then
            let f := filterPoints A (some nextI) none
            match f.2 with
            | none => engineGo dim zp fuel rest f.1 tris
            | some s =>
              let c := cureLocalIntersections f.1 s tris dim
              engineGo dim zp fuel (ECall.enter c.2.1 2 :: rest) c.1 c.2.2
          else if pass = 2 then
            engineGo dim zp fuel (ECall.split nextI :: rest) A tris
          else engineGo dim zp fuel rest A tris
        else engineGo dim zp fuel (ECall.loop nextI stop pass :: rest) A tris
  | fuel+1, ECall.split start :: rest, A, tris =>
    engineGo dim zp fuel
      (ECall.splitLoop start ((nd A (nd A start).next).next) start :: rest) A tris
  | fuel+1, ECall.splitLoop a b start :: rest, A, tris =>
    if b ≠ (nd A a).prev then
      if (nd A a).i ≠ (nd A b).i && isValidDiagonal A a b then
        let s := splitPolygon A a b
        let fa := filterPoints s.1 (some a) (some ((nd s.1 a).next))
        let fc := filterPoints fa.1 (some s.2) (some ((nd fa.1 s.2).next))
        engineGo dim zp fuel (ECall.enter fa.2 0 :: ECall.enter fc.2 0 :: rest) fc.1 tris
      else engineGo dim zp fuel (ECall.splitLoop a ((nd A b).next) start :: rest) A tris
    else
      let a1 := (nd A a).next
      if a1 = start then engineGo dim zp fuel rest A tris
      else
        engineGo dim zp fuel
          (ECall.splitLoop a1 ((nd A (nd A a1).next).next) start :: rest) A tris

/-- Main ear slicing entry `earcutLinked` (earcut.ts 133-185), as a single
activation of the engine. -/
def earcutLinked (fuel : Nat) (A : Arena) (earO : Option Nat) (tris : List Nat)
    (dim : Nat) (zp : Option (R × R × R)) (pass : Nat) : Arena × List Nat :=
  engineGo dim zp fuel [ECall.enter earO pass] A tris

/-- Bounding-box fold of earcut.ts 66-73 over the outer span. -/
def computeZParamsGo (data : List R) (dim : Nat) (outerLen : Int) :
    Nat → Int → R → R → R → R → R × R × R × R
  | 0, _, mnx, mny, mxx, mxy => (mnx, mny, mxx, mxy)
  | fuel+1, i, mnx, mny, mxx, mxy =>
    if i < outerLen then
      let x := dget data i
      let y := dget data (i + 1)
      computeZParamsGo data dim outerLen fuel (i + dim)
        (if x < mnx then x else mnx) (if y < mny then y else mny)
        (if mxx < x then x else mxx) (if mxy < y then y else mxy)
    else (mnx, mny, mxx, mxy)

/-- The source's `hasHoles` test (earcut.ts 44): `holeIndices && holeIndices.length`. -/
def hasHolesB (holeIndices : Option (List Nat)) : Bool :=
  match holeIndices with
  | some l => decide (l.length ≠ 0)
  | none => false

/-- The source's `outerLen` (earcut.ts 45): the end of the outer span. -/
def outerLenOf (positions : List R) (holeIndices : Option (List Nat)) (dim : Nat) : Int :=
  if hasHolesB holeIndices
  then ((holeIndices.getD []).headD 0 : Int) * dim
  else (positions.length : Int)

/-- The z-order parameters of earcut.ts 61-78: `none` when the input is at
or below the 80-vertex threshold, otherwise `some (minX, minY, invSize)`
with `invSize` the inverse of the larger bounding-box extent of the outer
span, or 0 when that extent is zero. -/
def computeZParams (positions : List R) (holeIndices : Option (List Nat))
    (dim : Nat) : Option (R × R × R) :=
  let outerLen : Int := outerLenOf positions holeIndices dim
  if 80 * dim < positions.length then
    let x0 := dget positions 0
    let y0 := dget positions 1
    let r := computeZParamsGo positions dim outerLen (positions.length + 1) dim x0 y0 x0 y0
    let size := rmax (r.2.2.1 - r.1) (r.2.2.2 - r.2.1)
    some (r.1, r.2.1, if size ≠ 0 then 1 / size else 0)
  else none

/-- Fuel supplied to the ear-clipping engine by `earcut`; any bound large
enough for complete runs works, since the theorems below quantify over the
fuel where they need to. -/
def earcutFuel (positions : List R) : Nat :=
  (positions.length + 4) * (positions.length + 4)

/-- Top-level triangulation, earcut.ts 38-83.  Returns `none` exactly where
the source would throw (see `eliminateHolesBuild`), `some []` for degenerate
input, and `some` of the flat triangle index list otherwise. -/
def earcut (positions : List R) (holeIndices : Option (List Nat)) (dim : Nat)
    (areas : Option (List R)) : Option (List Nat) :=
  let outerLen : Int := outerLenOf positions holeIndices dim
  let r0 := linkedList positions 0 outerLen dim true (areas.bind (fun l => l.get? 0)) []
  match r0.2 with
  | none => some []
  | some outer0 =>
    if (nd r0.1 outer0).next = (nd r0.1 outer0).prev then some []
    else
      let holesRes := if hasHolesB holeIndices
        then eliminateHoles positions (holeIndices.getD []) outer0 dim areas r0.1
        else some (r0.1, outer0)
      match holesRes with
      | none => none
      | some (A1, outer1) =>
        let zp := computeZParams positions holeIndices dim
        some (earcutLinked (earcutFuel positions) A1 (some outer1) [] dim zp 0).2

/-- The agreement condition of claim C9 on a supplied `areas` list, phrased
over the very spans `eliminateHolesBuild` consumes: entry `ordinal + 1`
equals the freshly computed signed area of the hole span starting at the
head hole index (its end being the next hole start or the end of the data),
and so on recursively. -/
def areasMatch (data : List R) (dim : Nat) (l : List R) : Nat → List Nat → Bool
  | _, [] => true
  | ordinal, h :: rest =>
    decide (l.get? (ordinal + 1) = some (getPolygonSignedArea data ((h : Int) * dim)
      (match rest with
       | h2 :: _ => ((h2 : Nat) : Int) * dim
       | [] => ((data.length : Nat) : Int)) dim)) &&
    areasMatch data dim l (ordinal + 1) rest

/-- Vertex scan of the ear test as a list: the nodes visited by the loop of
`isEarGo`, walking from a start node and stopping at `stop`, one fuel unit
per node. -/
def scanList (A : Arena) (stop : Nat) : Nat → Nat → List Nat
  | 0, _ => []
  | fuel+1, p =>
    if p = stop then []
    else p :: scanList A stop fuel (nd A p).next

/-- Strict-interior variant of `pointInTriangle`, used to state claim C6 in
the spec's words: all three half-plane values strictly positive. -/
def pointInTriangleStrict (ax ay bx b2 cx cy px py : R) : Bool :=
  decide (0 < (cx - px) * (ay - py) - (ax - px) * (cy - py)) &&
  decide (0 < (ax - px) * (b2 - py) - (bx - px) * (ay - py)) &&
  decide (0 < (bx - px) * (cy - py) - (cx - px) * (b2 - py))

/-- Ear test in the words of claim C6, for comparison with the code's
`isEar`: a convex turn at the candidate (signed area of (prev, ear, next)
negative) and no other ring vertex that is itself non-reflex (signed turn at
most zero) lies strictly inside the candidate triangle. -/
def isEarSpecC6 (A : Arena) (ear : Nat) : Bool :=
  let b := nd A ear
  let a := nd A b.prev
  let c := nd A b.next
  decide (area a b c < 0) &&
  (scanList A b.prev (A.length + 1) (nd A b.next).next).all fun q =>
    let p := nd A q
    !(pointInTriangleStrict a.x a.y b.x b.y c.x c.y p.x p.y &&
      decide (area (nd A p.prev) p (nd A p.next) ≤ 0))

/-- The circular doubly linked arena produced by a run of `insertNode`
insertions: `j` nodes in arena order, node `k` holding the vertex data
`g k = (i, x, y)`, linked with wrap-around (`prev` of node 0 is `j - 1`,
`next` of node `j - 1` is 0). -/
def ringArena (g : Nat → Nat × R × R) (j : Nat) : Arena :=
  (List.range j).map fun k =>
    { i := (g k).1, x := (g k).2.1, y := (g k).2.2,
      prev := if k = 0 then j - 1 else k - 1,
      next := if k = j - 1 then 0 else k + 1,
      z := none, prevZ := none, nextZ := none, steiner := false }

/-! ## Theorems -/

theorem radd_eq (a b : R) : a + b = toRat a + toRat b := by
  show radd a b = _
  rw [radd]
  conv => rhs; rw [← Rat.num_divInt_den (toRat a), ← Rat.num_divInt_den (toRat b)]
  rw [Rat.divInt_add_divInt _ _ (Int.natCast_ne_zero.mpr (toRat a).den_nz)
    (Int.natCast_ne_zero.mpr (toRat b).den_nz)]
  rfl

theorem rmul_eq (a b : R) : a * b = toRat a * toRat b := by
  show rmul a b = _
  rw [rmul]
  conv => rhs; rw [← Rat.num_divInt_den (toRat a), ← Rat.num_divInt_den (toRat b)]
  rw [Rat.divInt_mul_divInt _ _ (Int.natCast_ne_zero.mpr (toRat a).den_nz)
    (Int.natCast_ne_zero.mpr (toRat b).den_nz)]
  rfl

theorem rsub_eq (a b : R) : a - b = toRat a - toRat b := by
  show rsub a b = _
  rw [rsub]
  conv => rhs; rw [← Rat.num_divInt_den (toRat a), ← Rat.num_divInt_den (toRat b)]
  rw [Rat.divInt_sub_divInt _ _ (Int.natCast_ne_zero.mpr (toRat a).den_nz)
    (Int.natCast_ne_zero.mpr (toRat b).den_nz)]
  rfl

theorem rdiv_eq (a b : R) : a / b = toRat a / toRat b := by
  show rdiv a b = _
  rw [rdiv, Rat.div_def']
  rfl

theorem negR_eq (a : R) : -a = -(toRat a) := by
  show Rat.neg a = _
  rfl


/-- C4: earcut returns an empty sequence for degenerate input: whenever the
outer ring fails to build (`linkedList` returns `undefined` on the outer
span) or has fewer than 3 effective vertices after duplicate removal
(`outerNode.next === outerNode.prev`), the result is exactly `[]`
(earcut.ts 44-49). -/
theorem earcut_degenerate_returns_empty (positions : List R)
    (holeIndices : Option (List Nat)) (dim : Nat) (areas : Option (List R))
    (h : (linkedList positions 0 (outerLenOf positions holeIndices dim) dim true
            (areas.bind fun l => l.get? 0) []).2 = none ∨
         ∃ o, (linkedList positions 0 (outerLenOf positions holeIndices dim) dim true
                 (areas.bind fun l => l.get? 0) []).2 = some o ∧
           (nd (linkedList positions 0 (outerLenOf positions holeIndices dim) dim true
                 (areas.bind fun l => l.get? 0) []).1 o).next =
           (nd (linkedList positions 0 (outerLenOf positions holeIndices dim) dim true
                 (areas.bind fun l => l.get? 0) []).1 o).prev) :
    earcut positions holeIndices dim areas = some [] := by
  unfold earcut
  rcases h with h | ⟨o, ho, hnp⟩
  · simp only [h]
  · simp only [ho, hnp, if_pos]

/-- Witness for C4 at the two-vertex input `[0,0, 5,5]`, whose ring has
`next = prev` at the returned node. -/
theorem earcut_degenerate_returns_empty_witness :
    earcut [0, 0, 5, 5] none 2 none = some [] :=
  earcut_degenerate_returns_empty [0, 0, 5, 5] none 2 none
    (Or.inr ⟨1, by decide, by decide⟩)

theorem append_triple_mod3 (tris : List Nat) (a b c : Nat) :
    (tris ++ [a, b, c]).length % 3 = tris.length % 3 := by
  simp [List.length_append]

theorem cureLocalGo_tris_mod3 (dim : Nat) :
    ∀ (fuel : Nat) (A : Arena) (p start : Nat) (tris : List Nat),
      ((cureLocalGo dim fuel A p start tris).2.2).length % 3 = tris.length % 3 := by
  intro fuel
  induction fuel with
  | zero => intro A p start tris; rfl
  | succ n ih =>
    intro A p start tris
    simp only [cureLocalGo]
    split
    · split
      · exact append_triple_mod3 tris _ _ _
      · exact (ih _ _ _ _).trans (append_triple_mod3 tris _ _ _)
    · split
      · rfl
      · exact ih _ _ _ _

theorem cureLocalIntersections_tris_mod3 (A : Arena) (start : Nat) (tris : List Nat)
    (dim : Nat) :
    ((cureLocalIntersections A start tris dim).2.2).length % 3 = tris.length % 3 := by
  unfold cureLocalIntersections
  exact cureLocalGo_tris_mod3 dim _ A start start tris

theorem engineGo_tris_mod3 (dim : Nat) (zp : Option (R × R × R)) :
    ∀ (fuel : Nat) (calls : List ECall) (A : Arena) (tris : List Nat),
      ((engineGo dim zp fuel calls A tris).2).length % 3 = tris.length % 3 := by
  intro fuel
  induction fuel with
  | zero => intro calls A tris; rfl
  | succ n ih =>
    intro calls A tris
    rcases calls with _ | ⟨c, rest⟩
    · rfl
    rcases c with ⟨earO, pass⟩ | ⟨ear, stop, pass⟩ | ⟨start⟩ | ⟨a, b, start⟩
    · rcases earO with _ | ear
      · exact ih _ _ _
      · exact ih _ _ _
    · simp only [engineGo]
      split
      · exact ih _ _ _
      · split
        · exact (ih _ _ _).trans (append_triple_mod3 tris _ _ _)
        · split
          · split
            · exact ih _ _ _
            · split
              · split
                · exact ih _ _ _
                · exact (ih _ _ _).trans (cureLocalIntersections_tris_mod3 _ _ _ _)
              · split
                · exact ih _ _ _
                · exact ih _ _ _
          · exact ih _ _ _
    · exact ih _ _ _
    · simp only [engineGo]
      split
      · split
        · exact ih _ _ _
        · exact ih _ _ _
      · split
        · exact ih _ _ _
        · exact ih _ _ _

/-- C3: for every input on which earcut returns (`some`), the returned flat
index sequence has length a multiple of 3: every emission site (the
plain/hashed ear clip of `earcutLinked` and the cure in
`cureLocalIntersections`) appends exactly three indices. -/
theorem earcut_length_multiple_of_three (positions : List R)
    (holeIndices : Option (List Nat)) (dim : Nat) (areas : Option (List R))
    (out : List Nat) (h : earcut positions holeIndices dim areas = some out) :
    out.length % 3 = 0 := by
  unfold earcut at h
  simp only [] at h
  rcases hL : (linkedList positions 0 (outerLenOf positions holeIndices dim) dim true
      (areas.bind fun l => l.get? 0) []).2 with _ | outer0
  · simp only [hL] at h
    cases h
    rfl
  · simp only [hL] at h
    by_cases hnp : (nd (linkedList positions 0 (outerLenOf positions holeIndices dim) dim true
        (areas.bind fun l => l.get? 0) []).1 outer0).next =
        (nd (linkedList positions 0 (outerLenOf positions holeIndices dim) dim true
        (areas.bind fun l => l.get? 0) []).1 outer0).prev
    · rw [if_pos hnp] at h
      cases h
      rfl
    · rw [if_neg hnp] at h
      rcases hH : (if hasHolesB holeIndices then
          eliminateHoles positions (holeIndices.getD []) outer0 dim areas
            (linkedList positions 0 (outerLenOf positions holeIndices dim) dim true
              (areas.bind fun l => l.get? 0) []).1
        else some ((linkedList positions 0 (outerLenOf positions holeIndices dim) dim true
              (areas.bind fun l => l.get? 0) []).1, outer0)) with _ | ⟨A1, outer1⟩
      · simp only [hH] at h
        exact Option.noConfusion h
      · simp only [hH] at h
        cases h
        exact engineGo_tris_mod3 _ _ _ _ _ []

/-- Witness for C3 at the square, whose six returned indices have length a
multiple of three. -/
theorem earcut_length_multiple_of_three_witness :
    ([2, 3, 0, 0, 1, 2] : List Nat).length % 3 = 0 :=
  earcut_length_multiple_of_three [0, 0, 10, 0, 10, 10, 0, 10] none 2 none
    [2, 3, 0, 0, 1, 2] (by decide)

theorem nd_out (A : Arena) (p : Nat) (h : A.length ≤ p) : nd A p = default := by
  simp [nd, List.getD_eq_getElem?_getD, List.getElem?_eq_none h]

theorem nd_set_ne (A : Arena) (q p : Nat) (v : ENode) (h : q ≠ p) :
    nd (A.set q v) p = nd A p := by
  simp [nd, List.getD_eq_getElem?_getD, List.getElem?_set_ne h]

theorem nd_set_self (A : Arena) (q : Nat) (v : ENode) (h : q < A.length) :
    nd (A.set q v) q = v := by
  simp [nd, List.getD_eq_getElem?_getD, List.getElem?_set_self', h]

theorem nd_mdf_ne (A : Arena) (q p : Nat) (f : ENode → ENode) (h : q ≠ p) :
    nd (mdf A q f) p = nd A p := nd_set_ne A q p _ h

theorem nd_mdf_self (A : Arena) (q : Nat) (f : ENode → ENode) (h : q < A.length) :
    nd (mdf A q f) q = f (nd A q) := nd_set_self A q _ h

theorem mdf_length (A : Arena) (q : Nat) (f : ENode → ENode) :
    (mdf A q f).length = A.length := by
  simp [mdf]

theorem nd_append_lt (A l : Arena) (p : Nat) (h : p < A.length) :
    nd (A ++ l) p = nd A p := by
  simp [nd, List.getD_eq_getElem?_getD, List.getElem?_append, h]

theorem nd_append_at (A : Arena) (v : ENode) (l : Arena) :
    nd (A ++ v :: l) A.length = v := by
  rw [nd, List.getD_eq_getElem?_getD, List.getElem?_append_right le_rfl]
  simp

theorem nd_append_ge (A l : Arena) (p : Nat) (h : A.length ≤ p) :
    nd (A ++ l) p = nd l (p - A.length) := by
  simp [nd, List.getD_eq_getElem?_getD, List.getElem?_append, Nat.not_lt.mpr h]

theorem iBound_default {len : Nat} {A : Arena} (h : ∀ p, (nd A p).i < len) :
    (default : ENode).i < len := by
  have := h A.length
  rwa [nd_out A A.length le_rfl] at this

theorem iBound_mdf {len : Nat} {A : Arena} {q : Nat} {f : ENode → ENode}
    (hf : ∀ n, (f n).i = n.i) (h : ∀ p, (nd A p).i < len) :
    ∀ p, (nd (mdf A q f) p).i < len := by
  intro p
  by_cases hq : q = p
  · subst hq
    by_cases hlt : q < A.length
    · rw [nd_mdf_self A q f hlt, hf]
      exact h q
    · unfold mdf
      rw [List.set_eq_of_length_le (Nat.le_of_not_lt hlt)]
      exact h q
  · rw [nd_mdf_ne A q p f hq]
    exact h p

theorem iBound_append1 {len : Nat} {A : Arena} {v : ENode}
    (h : ∀ p, (nd A p).i < len) (hv : v.i < len) :
    ∀ p, (nd (A ++ [v]) p).i < len := by
  intro p
  rcases Nat.lt_or_ge p A.length with hp | hp
  · rw [nd_append_lt A [v] p hp]
    exact h p
  · rcases Nat.eq_or_lt_of_le hp with hp2 | hp2
    · rw [← hp2, nd_append_at]
      exact hv
    · rw [nd_out]
      · exact iBound_default h
      · simpa using hp2

theorem iBound_append2 {len : Nat} {A : Arena} {v1 v2 : ENode}
    (h : ∀ p, (nd A p).i < len) (hv1 : v1.i < len) (hv2 : v2.i < len) :
    ∀ p, (nd (A ++ [v1, v2]) p).i < len := by
  have e : A ++ [v1, v2] = (A ++ [v1]) ++ [v2] := by simp
  rw [e]
  exact iBound_append1 (iBound_append1 h hv1) hv2

theorem removeNode_iBound {len : Nat} {A : Arena} (q : Nat)
    (h : ∀ p, (nd A p).i < len) : ∀ p, (nd (removeNode A q) p).i < len := by
  unfold removeNode
  simp only []
  rcases h1 : (nd A q).prevZ with _ | z1 <;> rcases h2 : (nd A q).nextZ with _ | z2 <;>
    simp only [h1, h2] <;>
    (repeat refine iBound_mdf (fun _ => rfl) ?_) <;> exact h

theorem insertNode_iBound {len : Nat} {A : Arena} {i : Nat} {x y : R}
    {last : Option Nat} (hi : i < len) (h : ∀ p, (nd A p).i < len) :
    ∀ p, (nd (insertNode i x y last A).1 p).i < len := by
  unfold insertNode
  rcases last with _ | l
  · simp only []
    refine iBound_append1 h ?_
    exact hi
  · simp only []
    refine iBound_mdf (fun _ => rfl) ?_
    refine iBound_mdf (fun _ => rfl) ?_
    refine iBound_append1 h ?_
    exact hi

theorem splitPolygon_iBound {len : Nat} {A : Arena} (a b : Nat)
    (h : ∀ p, (nd A p).i < len) : ∀ p, (nd (splitPolygon A a b).1 p).i < len := by
  unfold splitPolygon
  simp only []
  repeat refine iBound_mdf (fun _ => rfl) ?_
  refine iBound_append2 h ?_ ?_
  · exact h a
  · exact h b

theorem filterPointsGo_iBound {len : Nat} :
    ∀ (fuel : Nat) (A : Arena) (p e : Nat), (∀ q, (nd A q).i < len) →
      ∀ q, (nd (filterPointsGo fuel A p e).1 q).i < len := by
  intro fuel
  induction fuel with
  | zero => intro A p e h; exact h
  | succ n ih =>
    intro A p e h
    simp only [filterPointsGo]
    split
    · split
      · exact removeNode_iBound p h
      · exact ih _ _ _ (removeNode_iBound p h)
    · split
      · exact h
      · exact ih _ _ _ h

theorem filterPoints_iBound {len : Nat} {A : Arena} (start e : Option Nat)
    (h : ∀ q, (nd A q).i < len) : ∀ q, (nd (filterPoints A start e).1 q).i < len := by
  unfold filterPoints
  rcases start with _ | s
  · exact h
  · rcases e with _ | x <;> exact filterPointsGo_iBound _ _ _ _ h

theorem indexCurveGo_iBound {len : Nat} (start : Nat) (mnx mny inv : R) :
    ∀ (fuel : Nat) (A : Arena) (p : Nat), (∀ q, (nd A q).i < len) →
      ∀ q, (nd (indexCurveGo start mnx mny inv fuel A p) q).i < len := by
  intro fuel
  induction fuel with
  | zero => intro A p h; exact h
  | succ n ih =>
    intro A p h
    simp only [indexCurveGo]
    split <;> split <;>
      first
        | exact iBound_mdf (fun _ => rfl) (iBound_mdf (fun _ => rfl) h)
        | exact ih _ _ (iBound_mdf (fun _ => rfl) (iBound_mdf (fun _ => rfl) h))
        | exact iBound_mdf (fun _ => rfl) h
        | exact ih _ _ (iBound_mdf (fun _ => rfl) h)

theorem sortMergeGo_iBound {len : Nat} :
    ∀ (fuel : Nat) (A : Arena) (pO : Option Nat) (pSize : Nat) (qO : Option Nat)
      (qSize : Nat) (tail list : Option Nat), (∀ q, (nd A q).i < len) →
      ∀ q, (nd (sortMergeGo fuel A pO pSize qO qSize tail list).1 q).i < len := by
  intro fuel
  induction fuel with
  | zero => intro A pO pSize qO qSize tail list h; exact h
  | succ n ih =>
    intro A pO pSize qO qSize tail list h
    simp only [sortMergeGo]
    split
    · apply ih
      refine iBound_mdf (fun _ => rfl) ?_
      rcases tail with _ | t
      · exact h
      · exact iBound_mdf (fun _ => rfl) h
    · exact h

theorem sortPassGo_iBound {len : Nat} (inSize : Nat) :
    ∀ (fuel : Nat) (A : Arena) (pO tail list : Option Nat) (nm : Nat),
      (∀ q, (nd A q).i < len) →
      ∀ q, (nd (sortPassGo inSize fuel A pO tail list nm).1 q).i < len := by
  intro fuel
  induction fuel with
  | zero => intro A pO tail list nm h; exact h
  | succ n ih =>
    intro A pO tail list nm h
    simp only [sortPassGo]
    split
    · exact h
    · exact ih _ _ _ _ _ (sortMergeGo_iBound _ _ _ _ _ _ _ _ h)

theorem sortLinkedGo_iBound {len : Nat} :
    ∀ (fuel : Nat) (A : Arena) (list : Option Nat) (inSize : Nat),
      (∀ q, (nd A q).i < len) →
      ∀ q, (nd (sortLinkedGo fuel A list inSize).1 q).i < len := by
  intro fuel
  induction fuel with
  | zero => intro A list inSize h; exact h
  | succ n ih =>
    intro A list inSize h
    simp only [sortLinkedGo]
    have h1 : ∀ q, (nd (match (sortPassGo inSize (A.length + 1) A list none none 0).2.2.1 with
        | some t => mdf (sortPassGo inSize (A.length + 1) A list none none 0).1 t
            (fun n => { n with nextZ := none })
        | none => (sortPassGo inSize (A.length + 1) A list none none 0).1) q).i < len := by
      rcases (sortPassGo inSize (A.length + 1) A list none none 0).2.2.1 with _ | t
      · exact sortPassGo_iBound _ _ _ _ _ _ _ h
      · exact iBound_mdf (fun _ => rfl) (sortPassGo_iBound _ _ _ _ _ _ _ h)
    split
    · exact ih _ _ _ h1
    · exact h1

theorem sortLinked_iBound {len : Nat} {A : Arena} (list : Nat)
    (h : ∀ q, (nd A q).i < len) : ∀ q, (nd (sortLinked A list).1 q).i < len :=
  sortLinkedGo_iBound _ _ _ _ h

theorem indexCurve_iBound {len : Nat} {A : Arena} (start : Nat) (mnx mny inv : R)
    (h : ∀ q, (nd A q).i < len) : ∀ q, (nd (indexCurve A start mnx mny inv) q).i < len := by
  unfold indexCurve
  simp only []
  apply sortLinked_iBound
  refine iBound_mdf (fun _ => rfl) ?_
  rcases (nd (indexCurveGo start mnx mny inv (A.length + 1) A start) start).prevZ with _ | t
  · exact indexCurveGo_iBound _ _ _ _ _ _ _ h
  · exact iBound_mdf (fun _ => rfl) (indexCurveGo_iBound _ _ _ _ _ _ _ h)

theorem div_mul_lt_of_iBound {len dim : Nat} {A : Arena} (p : Nat)
    (h : ∀ q, (nd A q).i < len) : (nd A p).i / dim * dim < len :=
  Nat.lt_of_le_of_lt (Nat.div_mul_le_self _ _) (h p)

theorem cureLocalGo_iBound {len dim : Nat} :
    ∀ (fuel : Nat) (A : Arena) (p start : Nat) (tris : List Nat),
      (∀ q, (nd A q).i < len) → (∀ k ∈ tris, k * dim < len) →
      (∀ q, (nd (cureLocalGo dim fuel A p start tris).1 q).i < len) ∧
      (∀ k ∈ (cureLocalGo dim fuel A p start tris).2.2, k * dim < len) := by
  intro fuel
  induction fuel with
  | zero => intro A p start tris h ht; exact ⟨h, ht⟩
  | succ n ih =>
    intro A p start tris h ht
    have ht3 : ∀ k ∈ tris ++ [(nd A (nd A p).prev).i / dim, (nd A p).i / dim,
        (nd A (nd A (nd A p).next).next).i / dim], k * dim < len := by
      intro k hk
      rcases List.mem_append.mp hk with hk | hk
      · exact ht k hk
      · simp only [List.mem_cons, List.not_mem_nil, or_false] at hk
        rcases hk with rfl | rfl | rfl
        · exact div_mul_lt_of_iBound _ h
        · exact div_mul_lt_of_iBound _ h
        · exact div_mul_lt_of_iBound _ h
    simp only [cureLocalGo]
    split
    · have h2 : ∀ q, (nd (removeNode (removeNode A p)
          ((nd (removeNode A p) p).next)) q).i < len :=
        removeNode_iBound _ (removeNode_iBound _ h)
      split
      · exact ⟨h2, ht3⟩
      · exact ih _ _ _ _ h2 ht3
    · split
      · exact ⟨h, ht⟩
      · exact ih _ _ _ _ h ht

theorem cureLocalIntersections_iBound {len dim : Nat} {A : Arena} (start : Nat)
    (tris : List Nat) (h : ∀ q, (nd A q).i < len) (ht : ∀ k ∈ tris, k * dim < len) :
    (∀ q, (nd (cureLocalIntersections A start tris dim).1 q).i < len) ∧
    (∀ k ∈ (cureLocalIntersections A start tris dim).2.2, k * dim < len) := by
  unfold cureLocalIntersections
  have hc := cureLocalGo_iBound ((A.length + 1) * (A.length + 1))
    A start start tris h ht
  exact ⟨filterPointsGo_iBound _ _ _ _ hc.1, hc.2⟩

theorem insertFwdGo_iBound {len : Nat} {data : List R} {dim : Nat} {e : Int}
    (he : e ≤ (len : Int)) :
    ∀ (fuel : Nat) (i : Int) (last : Option Nat) (A : Arena), 0 ≤ i →
      (∀ q, (nd A q).i < len) →
      ∀ q, (nd (insertFwdGo data dim e fuel i last A).1 q).i < len := by
  intro fuel
  induction fuel with
  | zero => intro i last A hi h; exact h
  | succ n ih =>
    intro i last A hi h
    simp only [insertFwdGo]
    split
    · refine ih _ _ _ (by omega) ?_
      refine insertNode_iBound ?_ h
      have : i < (len : Int) := lt_of_lt_of_le (by assumption) he
      omega
    · exact h

theorem insertRevGo_iBound {len : Nat} {data : List R} {dim : Nat} {s : Int}
    (hs0 : 0 ≤ s) :
    ∀ (fuel : Nat) (i : Int) (last : Option Nat) (A : Arena), i < (len : Int) →
      (∀ q, (nd A q).i < len) →
      ∀ q, (nd (insertRevGo data dim s fuel i last A).1 q).i < len := by
  intro fuel
  induction fuel with
  | zero => intro i last A hi h; exact h
  | succ n ih =>
    intro i last A hi h
    simp only [insertRevGo]
    split
    · refine ih _ _ _ (by omega) ?_
      refine insertNode_iBound ?_ h
      omega
    · exact h

theorem linkedList_iBound {len : Nat} {data : List R} {start e : Int} {dim : Nat}
    {clockwise : Bool} {areaOpt : Option R} {A : Arena}
    (hdim : 1 ≤ dim) (hs : 0 ≤ start) (he : e ≤ (len : Int))
    (h : ∀ q, (nd A q).i < len) :
    ∀ q, (nd (linkedList data start e dim clockwise areaOpt A).1 q).i < len := by
  unfold linkedList
  simp only []
  have hF : ∀ q, (nd (insertFwdGo data dim e ((e - start).toNat + 1) start none A).1 q).i
      < len := insertFwdGo_iBound he _ _ _ _ hs h
  have hR : ∀ q, (nd (insertRevGo data dim start ((e - start).toNat + 1) (e - dim)
      none A).1 q).i < len := insertRevGo_iBound hs _ _ _ _ (by omega) h
  split <;> (try split) <;> (try split) <;>
    first
      | exact hF
      | exact hR
      | exact removeNode_iBound _ hF
      | exact removeNode_iBound _ hR

theorem eliminateHole_iBound {len : Nat} {A : Arena} (hole outerNode : Nat)
    (h : ∀ q, (nd A q).i < len) : ∀ q, (nd (eliminateHole A hole outerNode) q).i < len := by
  unfold eliminateHole
  rcases findHoleBridge A hole outerNode with _ | onode
  · exact h
  · exact filterPoints_iBound _ _ (filterPoints_iBound _ _ (splitPolygon_iBound _ _ h))

theorem eliminateHolesBuild_iBound {len : Nat} {data : List R} {dim : Nat}
    {areas : Option (List R)} (hdim : 1 ≤ dim) (hlen : data.length ≤ len) :
    ∀ (hs : List Nat) (ordinal : Nat) (A : Arena) (queue : List Nat)
      (res : Arena × List Nat),
      (∀ hI ∈ hs, (hI : Int) * dim ≤ (len : Int)) →
      (∀ q, (nd A q).i < len) →
      eliminateHolesBuild data dim areas hs ordinal A queue = some res →
      ∀ q, (nd res.1 q).i < len := by
  intro hs
  induction hs with
  | nil =>
    intro ordinal A queue res hr h heq
    cases heq
    exact h
  | cons hd rest ih =>
    intro ordinal A queue res hr h heq
    have hs0 : (0 : Int) ≤ (hd : Int) * dim := by positivity
    rcases rest with _ | ⟨h2, rest2⟩
    · simp only [eliminateHolesBuild] at heq
      have he : ((data.length : Nat) : Int) ≤ (len : Int) := Int.ofNat_le.mpr hlen
      have hL : ∀ q, (nd (linkedList data ((hd : Int) * dim)
          ((data.length : Nat) : Int) dim false
          (areas.bind fun l => l.get? (ordinal + 1)) A).1 q).i < len :=
        linkedList_iBound hdim hs0 he h
      rcases hll : (linkedList data ((hd : Int) * dim) ((data.length : Nat) : Int)
          dim false (areas.bind fun l => l.get? (ordinal + 1)) A).2 with _ | listI
      · rw [hll] at heq
        exact absurd heq (by simp)
      · rw [hll] at heq
        simp only [eliminateHolesBuild] at heq
        have hL2 : ∀ q, (nd (mdf (linkedList data ((hd : Int) * dim)
            ((data.length : Nat) : Int) dim false
            (areas.bind fun l => l.get? (ordinal + 1)) A).1 listI
            (fun n => { n with steiner := true })) q).i < len :=
          iBound_mdf (fun _ => rfl) hL
        cases heq
        split
        · exact hL2
        · exact hL
    · simp only [eliminateHolesBuild] at heq
      have he : ((h2 : Nat) : Int) * dim ≤ (len : Int) := hr h2 (by simp)
      have hL : ∀ q, (nd (linkedList data ((hd : Int) * dim)
          (((h2 : Nat) : Int) * dim) dim false
          (areas.bind fun l => l.get? (ordinal + 1)) A).1 q).i < len :=
        linkedList_iBound hdim hs0 he h
      rcases hll : (linkedList data ((hd : Int) * dim) (((h2 : Nat) : Int) * dim)
          dim false (areas.bind fun l => l.get? (ordinal + 1)) A).2 with _ | listI
      · rw [hll] at heq
        exact absurd heq (by simp)
      · rw [hll] at heq
        have hL2 : ∀ q, (nd (mdf (linkedList data ((hd : Int) * dim)
            (((h2 : Nat) : Int) * dim) dim false
            (areas.bind fun l => l.get? (ordinal + 1)) A).1 listI
            (fun n => { n with steiner := true })) q).i < len :=
          iBound_mdf (fun _ => rfl) hL
        refine ih _ _ _ _ (fun hI hmem => hr hI (List.mem_cons_of_mem _ hmem)) ?_ heq
        split
        · exact hL2
        · exact hL

theorem eliminateHolesProcess_iBound {len : Nat} :
    ∀ (queue : List Nat) (A : Arena) (o : Nat), (∀ q, (nd A q).i < len) →
      ∀ q, (nd (eliminateHolesProcess queue A o).1 q).i < len := by
  intro queue
  induction queue with
  | nil => intro A o h; exact h
  | cons hd rest ih =>
    intro A o h
    simp only [eliminateHolesProcess]
    have h1 := filterPoints_iBound (A := eliminateHole A hd o) (some o)
      (some ((nd (eliminateHole A hd o) o).next)) (eliminateHole_iBound hd o h)
    split
    · exact ih _ _ h1
    · exact ih _ _ h1

theorem eliminateHoles_iBound {len : Nat} {data : List R} {holeIndices : List Nat}
    {outerNode dim : Nat} {areas : Option (List R)} {A : Arena}
    (hdim : 1 ≤ dim) (hlen : data.length ≤ len)
    (hr : ∀ hI ∈ holeIndices, (hI : Int) * dim ≤ (len : Int))
    (h : ∀ q, (nd A q).i < len) :
    ∀ res, eliminateHoles data holeIndices outerNode dim areas A = some res →
      ∀ q, (nd res.1 q).i < len := by
  intro res heq
  unfold eliminateHoles at heq
  rcases hb : eliminateHolesBuild data dim areas holeIndices 0 A [] with _ | pr
  · rw [hb] at heq
    exact absurd heq (by simp)
  · rw [hb] at heq
    simp only [] at heq
    cases heq
    exact eliminateHolesProcess_iBound _ _ _
      (eliminateHolesBuild_iBound hdim hlen _ _ _ _ _ hr h hb)

theorem tris_append_bound {len dim : Nat} {A : Arena} {tris : List Nat}
    (h : ∀ q, (nd A q).i < len) (ht : ∀ k ∈ tris, k * dim < len) (p1 p2 p3 : Nat) :
    ∀ k ∈ tris ++ [(nd A p1).i / dim, (nd A p2).i / dim, (nd A p3).i / dim],
      k * dim < len := by
  intro k hk
  rcases List.mem_append.mp hk with hk | hk
  · exact ht k hk
  · simp only [List.mem_cons, List.not_mem_nil, or_false] at hk
    rcases hk with rfl | rfl | rfl
    · exact div_mul_lt_of_iBound _ h
    · exact div_mul_lt_of_iBound _ h
    · exact div_mul_lt_of_iBound _ h

theorem engineGo_iBound_out {len dim : Nat} (zp : Option (R × R × R)) :
    ∀ (fuel : Nat) (calls : List ECall) (A : Arena) (tris : List Nat),
      (∀ q, (nd A q).i < len) → (∀ k ∈ tris, k * dim < len) →
      (∀ q, (nd (engineGo dim zp fuel calls A tris).1 q).i < len) ∧
      (∀ k ∈ (engineGo dim zp fuel calls A tris).2, k * dim < len) := by
  intro fuel
  induction fuel with
  | zero => intro calls A tris h ht; exact ⟨h, ht⟩
  | succ n ih =>
    intro calls A tris h ht
    rcases calls with _ | ⟨c, rest⟩
    · exact ⟨h, ht⟩
    rcases c with ⟨earO, pass⟩ | ⟨ear, stop, pass⟩ | ⟨start⟩ | ⟨a, b, start⟩
    · rcases earO with _ | ear
      · exact ih _ _ _ h ht
      · simp only [engineGo]
        refine ih _ _ _ ?_ ht
        split
        · rcases zp with _ | ⟨mnx, mny, inv⟩
          · exact h
          · exact indexCurve_iBound _ _ _ _ h
        · exact h
    · simp only [engineGo]
      split
      · exact ih _ _ _ h ht
      · split
        · exact ih _ _ _ (removeNode_iBound _ h) (tris_append_bound h ht _ _ _)
        · split
          · split
            · exact ih _ _ _ (filterPoints_iBound _ _ h) ht
            · split
              · split
                · exact ih _ _ _ (filterPoints_iBound _ _ h) ht
                · refine ih _ _ _ ?_ ?_
                  · exact (cureLocalIntersections_iBound _ _
                      (filterPoints_iBound _ _ h) ht).1
                  · exact (cureLocalIntersections_iBound _ _
                      (filterPoints_iBound _ _ h) ht).2
              · split
                · exact ih _ _ _ h ht
                · exact ih _ _ _ h ht
          · exact ih _ _ _ h ht
    · exact ih _ _ _ h ht
    · simp only [engineGo]
      split
      · split
        · refine ih _ _ _ ?_ ?_
          · exact filterPoints_iBound _ _ (filterPoints_iBound _ _
              (splitPolygon_iBound _ _ h))
          · exact ht
        · exact ih _ _ _ h ht
      · split
        · exact ih _ _ _ h ht
        · exact ih _ _ _ h ht

theorem linkedList_none_of_nonpos {data : List R} {e : Int} {dim : Nat}
    {clockwise : Bool} {areaOpt : Option R} {A : Arena}
    (hdim : 1 ≤ dim) (he : e ≤ 0) :
    (linkedList data 0 e dim clockwise areaOpt A).2 = none := by
  unfold linkedList
  simp only []
  have hf : insertFwdGo data dim e ((e - 0).toNat + 1) 0 none A = (A, none) := by
    simp only [insertFwdGo]
    rw [if_neg (by omega)]
  have hr : insertRevGo data dim 0 ((e - 0).toNat + 1) (e - dim) none A = (A, none) := by
    simp only [insertRevGo]
    rw [if_neg (by omega)]
  split
  · rfl
  · rename_i last l heq
    split at heq
    · rw [hf] at heq
      exact absurd heq (by simp)
    · rw [hr] at heq
      exact absurd heq (by simp)

/-- C10: assuming the hole indices (when present) are strictly ascending and
each lies within the vertex range, every element of an earcut result is an
index k with k * dim < positions.length (i.e. k < positions.length / dim):
node offsets are created only below `positions.length` and are copied
unchanged by bridge and split duplication, and every emitted value is such
an offset divided by dim. -/
theorem earcut_output_index_bound (positions : List R)
    (holeIndices : Option (List Nat)) (dim : Nat) (areas : Option (List R))
    (out : List Nat) (hdim : 1 ≤ dim)
    (hasc : List.Chain' (· < ·) (holeIndices.getD []))
    (hrange : ∀ hI ∈ holeIndices.getD [], hI * dim < positions.length)
    (h : earcut positions holeIndices dim areas = some out) :
    ∀ k ∈ out, k * dim < positions.length := by
  have he : outerLenOf positions holeIndices dim ≤ (positions.length : Int) := by
    unfold outerLenOf
    split
    · rename_i hh
      have hne : holeIndices.getD [] ≠ [] := by
        unfold hasHolesB at hh
        rcases holeIndices with _ | l
        · simp at hh
        · simp only [Option.getD]
          intro hcon
          rw [hcon] at hh
          simp at hh
      have hmem : (holeIndices.getD []).headD 0 ∈ holeIndices.getD [] := by
        rcases hx : holeIndices.getD [] with _ | ⟨x, xs⟩
        · exact absurd hx hne
        · simp
      have hb := hrange _ hmem
      omega
    · exact le_refl _
  unfold earcut at h
  simp only [] at h
  rcases hL : (linkedList positions 0 (outerLenOf positions holeIndices dim) dim true
      (areas.bind fun l => l.get? 0) []).2 with _ | outer0
  · simp only [hL] at h
    cases h
    intro k hk
    cases hk
  · have hlen0 : 0 < positions.length := by
      by_contra hc
      have h0 : positions.length = 0 := by omega
      have hnone : (linkedList positions 0 (outerLenOf positions holeIndices dim) dim
          true (areas.bind fun l => l.get? 0) []).2 = none := by
        refine linkedList_none_of_nonpos hdim ?_
        rw [h0] at he
        exact_mod_cast he
      rw [hnone] at hL
      exact absurd hL (by simp)
    have hempty : ∀ q, (nd ([] : Arena) q).i < positions.length := fun q => hlen0
    have hib : ∀ q, (nd (linkedList positions 0 (outerLenOf positions holeIndices dim)
        dim true (areas.bind fun l => l.get? 0) []).1 q).i < positions.length :=
      linkedList_iBound hdim (le_refl 0) he hempty
    simp only [hL] at h
    by_cases hnp : (nd (linkedList positions 0 (outerLenOf positions holeIndices dim)
        dim true (areas.bind fun l => l.get? 0) []).1 outer0).next =
        (nd (linkedList positions 0 (outerLenOf positions holeIndices dim) dim true
        (areas.bind fun l => l.get? 0) []).1 outer0).prev
    · rw [if_pos hnp] at h
      cases h
      intro k hk
      cases hk
    · rw [if_neg hnp] at h
      rcases hH : (if hasHolesB holeIndices then
          eliminateHoles positions (holeIndices.getD []) outer0 dim areas
            (linkedList positions 0 (outerLenOf positions holeIndices dim) dim true
              (areas.bind fun l => l.get? 0) []).1
        else some ((linkedList positions 0 (outerLenOf positions holeIndices dim) dim
              true (areas.bind fun l => l.get? 0) []).1, outer0)) with _ | ⟨A1, outer1⟩
      · simp only [hH] at h
        exact absurd h (by simp)
      · simp only [hH] at h
        cases h
        have hA1 : ∀ q, (nd A1 q).i < positions.length := by
          by_cases hh : hasHolesB holeIndices = true
          · rw [if_pos hh] at hH
            refine eliminateHoles_iBound hdim le_rfl ?_ hib (A1, outer1) hH
            intro hI hmem
            have := hrange hI hmem
            omega
          · rw [if_neg hh] at hH
            cases hH
            exact hib
        intro k hk
        exact (engineGo_iBound_out _ _ _ _ _ hA1 (fun k hk2 => absurd hk2
          (List.not_mem_nil k))).2 k hk

/-- Witness for C10 at the square: the first returned index 2 satisfies
2 * 2 < 8. -/
theorem earcut_output_index_bound_witness :
    (2 : Nat) * 2 < ([0, 0, 10, 0, 10, 10, 0, 10] : List R).length :=
  earcut_output_index_bound [0, 0, 10, 0, 10, 10, 0, 10] none 2 none
    [2, 3, 0, 0, 1, 2] (by decide) (by simp) (by simp) (by decide) 2 (by decide)

theorem linkedList_computed_area (data : List R) (start e : Int) (dim : Nat)
    (clockwise : Bool) (A : Arena) :
    linkedList data start e dim clockwise
      (some (getPolygonSignedArea data start e dim)) A =
    linkedList data start e dim clockwise none A := rfl

theorem eliminateHolesBuild_areas (data : List R) (dim : Nat) (l : List R) :
    ∀ (hs : List Nat) (ordinal : Nat) (A : Arena) (queue : List Nat),
      areasMatch data dim l ordinal hs = true →
      eliminateHolesBuild data dim (some l) hs ordinal A queue =
      eliminateHolesBuild data dim none hs ordinal A queue := by
  intro hs
  induction hs with
  | nil => intro ordinal A queue hm; rfl
  | cons hd rest ih =>
    intro ordinal A queue hm
    simp only [areasMatch, Bool.and_eq_true, decide_eq_true_eq] at hm
    rcases rest with _ | ⟨h2, rest2⟩
    · simp only [eliminateHolesBuild, Option.some_bind, Option.none_bind]
      rw [hm.1, linkedList_computed_area]
    · simp only [eliminateHolesBuild, Option.some_bind, Option.none_bind]
      rw [hm.1, linkedList_computed_area]
      rcases hr : (linkedList data ((hd : Int) * dim) (((h2 : Nat) : Int) * dim) dim false
          none A).2 with _ | listI
      · simp only [hr]
      · simp only [hr]
        exact ih (ordinal + 1) _ _ hm.2

theorem eliminateHoles_areas (data : List R) (hs : List Nat) (outerNode dim : Nat)
    (l : List R) (A : Arena) (hm : areasMatch data dim l 0 hs = true) :
    eliminateHoles data hs outerNode dim (some l) A =
    eliminateHoles data hs outerNode dim none A := by
  unfold eliminateHoles
  rw [eliminateHolesBuild_areas data dim l hs 0 A [] hm]

/-- C9: supplying precomputed areas that match the freshly computed signed
areas of the outer span and of each hole span produces output identical to
omitting the areas argument. -/
theorem earcut_areas_equivalent (positions : List R)
    (holeIndices : Option (List Nat)) (dim : Nat) (l : List R)
    (h0 : l.get? 0 = some (getPolygonSignedArea positions 0
      (outerLenOf positions holeIndices dim) dim))
    (hm : areasMatch positions dim l 0 (holeIndices.getD []) = true) :
    earcut positions holeIndices dim (some l) = earcut positions holeIndices dim none := by
  unfold earcut
  simp only [Option.some_bind, Option.none_bind]
  rw [h0, linkedList_computed_area]
  rcases hr : (linkedList positions 0 (outerLenOf positions holeIndices dim) dim true
      none []).2 with _ | outer0
  · simp only [hr]
  · simp only [hr]
    refine if_congr Iff.rfl rfl ?_
    by_cases hH : hasHolesB holeIndices = true
    · simp only [hH, eq_self_iff_true, if_true]
      rw [eliminateHoles_areas positions (holeIndices.getD []) outer0 dim l
        (linkedList positions 0 (outerLenOf positions holeIndices dim) dim true none []).1 hm]
    · simp only [Bool.not_eq_true] at hH
      simp only [hH, Bool.false_eq_true, if_false]

/-- Witness for C9: the square with supplied area list `[-100]`, the freshly
computed signed area of its outer span, triangulates identically to the run
without areas. -/
theorem earcut_areas_equivalent_witness :
    earcut [0, 0, 10, 0, 10, 10, 0, 10] none 2 (some [-100]) =
    earcut [0, 0, 10, 0, 10, 10, 0, 10] none 2 none :=
  earcut_areas_equivalent [0, 0, 10, 0, 10, 10, 0, 10] none 2 [-100]
    (by decide) (by decide)

theorem rnot_le {a b : R} : ¬(a ≤ b) ↔ b < a := by
  show ¬(toRat a ≤ toRat b) ↔ toRat b < toRat a
  exact not_le

theorem isEarGo_iff (A : Arena) (a b c : ENode) (stop : Nat) :
    ∀ (fuel p : Nat), isEarGo A a b c stop fuel p = true ↔
      ∀ q ∈ scanList A stop fuel p,
        ¬(pointInTriangle a.x a.y b.x b.y c.x c.y (nd A q).x (nd A q).y = true ∧
          0 ≤ area (nd A (nd A q).prev) (nd A q) (nd A (nd A q).next)) := by
  intro fuel
  induction fuel with
  | zero => intro p; simp [isEarGo, scanList]
  | succ f ih =>
    intro p
    simp only [isEarGo, scanList, Bool.and_eq_true, decide_eq_true_eq]
    by_cases hstop : p = stop
    · simp [hstop]
    · simp only [if_neg hstop]
      by_cases hblk : pointInTriangle a.x a.y b.x b.y c.x c.y (nd A p).x (nd A p).y = true ∧
          0 ≤ area (nd A (nd A p).prev) (nd A p) (nd A (nd A p).next)
      · simp only [if_pos hblk, Bool.false_eq_true, false_iff]
        intro hAll
        exact hAll p (List.mem_cons_self p _) hblk
      · simp only [if_neg hblk]
        rw [ih ((nd A p).next), List.forall_mem_cons]
        exact (and_iff_right hblk).symm

/-- C6 (counterexample): on the pentagon (0,0), (4,0), (4,4), (2,1), (0,4)
the candidate at vertex 0 is rejected by the code's `isEar` — the reflex
vertex (2,1) lies inside the candidate triangle and the code blocks on
reflex-or-collinear contained vertices — while the claim's ear test, which
only blocks on non-reflex vertices strictly inside, accepts it. -/
theorem isEar_spec_counterexample :
    isEar (linkedList [0, 0, 4, 0, 4, 4, 2, 1, 0, 4] 0 10 2 true none []).1 0 = false ∧
    isEarSpecC6 (linkedList [0, 0, 4, 0, 4, 4, 2, 1, 0, 4] 0 10 2 true none []).1 0 = true := by
  decide

/-- C6 (amended): the code's ear test holds iff the signed turn at the
candidate is a convex turn AND no scanned ring vertex lying inside the
candidate triangle (boundary included) has a reflex-or-collinear signed
turn of its own — the claim's strict-interior, non-reflex-blocker reading
is refuted by the counterexample. -/
theorem isEar_characterization (A : Arena) (ear : Nat) :
    isEar A ear = true ↔
      (area (nd A (nd A ear).prev) (nd A ear) (nd A (nd A ear).next) < 0 ∧
       ∀ q ∈ scanList A (nd A ear).prev (A.length + 1) (nd A (nd A ear).next).next,
         ¬(pointInTriangle (nd A (nd A ear).prev).x (nd A (nd A ear).prev).y
             (nd A ear).x (nd A ear).y (nd A (nd A ear).next).x (nd A (nd A ear).next).y
             (nd A q).x (nd A q).y = true ∧
           0 ≤ area (nd A (nd A q).prev) (nd A q) (nd A (nd A q).next))) := by
  simp only [isEar]
  by_cases h0 : 0 ≤ area (nd A (nd A ear).prev) (nd A ear) (nd A (nd A ear).next)
  · simp only [if_pos h0, Bool.false_eq_true, false_iff]
    rintro ⟨h1, -⟩
    exact absurd h0 (rnot_le.mpr h1)
  · simp only [if_neg h0]
    rw [isEarGo_iff]
    exact (and_iff_right (rnot_le.mp h0)).symm

theorem toRat_inj {a b : R} (h : toRat a = toRat b) : a = b := h

theorem toRat_zero : toRat (0 : R) = 0 := by decide

theorem toRat_one : toRat (1 : R) = 1 := by decide

theorem rle_refl (a : R) : a ≤ a := by
  show toRat a ≤ toRat a
  exact le_refl _

theorem rle_trans {a b c : R} (h1 : a ≤ b) (h2 : b ≤ c) : a ≤ c := by
  show toRat a ≤ toRat c
  exact le_trans h1 h2

theorem rle_of_lt {a b : R} (h : a < b) : a ≤ b := by
  show toRat a ≤ toRat b
  exact le_of_lt h

theorem rnot_lt {a b : R} : ¬(a < b) ↔ b ≤ a := by
  show ¬(toRat a < toRat b) ↔ toRat b ≤ toRat a
  exact not_lt

theorem rlt_irrefl (a : R) : ¬(a < a) := by
  show ¬(toRat a < toRat a)
  exact lt_irrefl _

theorem rlt_of_le_of_lt {a b c : R} (h1 : a ≤ b) (h2 : b < c) : a < c := by
  show toRat a < toRat c
  exact lt_of_le_of_lt h1 h2

theorem rlt_of_lt_of_le {a b c : R} (h1 : a < b) (h2 : b ≤ c) : a < c := by
  show toRat a < toRat c
  exact lt_of_lt_of_le h1 h2

theorem rlt_or_gt_of_ne {a b : R} (h : a ≠ b) : a < b ∨ b < a := by
  show toRat a < toRat b ∨ toRat b < toRat a
  exact lt_or_gt_of_ne (fun hh => h (toRat_inj hh))

theorem rne_of_gt {a : R} (h : 0 < a) : a ≠ 0 :=
  fun he => rlt_irrefl 0 (he ▸ h)

theorem rsub_self (a : R) : a - a = 0 :=
  toRat_inj (by rw [rsub_eq, toRat_zero]; exact sub_self _)

theorem rsub_pos {a b : R} : 0 < a - b ↔ b < a := by
  constructor
  · intro hlt
    show toRat b < toRat a
    have h2 : toRat 0 < toRat (a - b) := hlt
    rw [rsub_eq, toRat_zero] at h2
    exact sub_pos.mp h2
  · intro hlt
    show toRat 0 < toRat (a - b)
    rw [rsub_eq, toRat_zero]
    exact sub_pos.mpr hlt

theorem rone_div_ne_zero {a : R} (h : a ≠ 0) : (1 : R) / a ≠ 0 := by
  intro he
  have h2 : toRat ((1 : R) / a) = toRat (0 : R) := by rw [he]
  rw [rdiv_eq, toRat_zero, toRat_one] at h2
  have ha : toRat a ≠ 0 := fun hh => h (toRat_inj (hh.trans toRat_zero.symm))
  exact one_div_ne_zero ha h2

theorem rle_rmax_left (a b : R) : a ≤ rmax a b := by
  simp only [rmax]
  split
  · exact rle_of_lt (by assumption)
  · exact rle_refl a

theorem rle_rmax_right (a b : R) : b ≤ rmax a b := by
  simp only [rmax]
  split
  · exact rle_refl b
  · exact rnot_lt.mp (by assumption)

theorem computeZParamsGo_bounds (data : List R) (dim : Nat) (outerLen : Int) :
    ∀ (fuel : Nat) (i : Int) (mnx mny mxx mxy a b c d : R),
      computeZParamsGo data dim outerLen fuel i mnx mny mxx mxy = (a, b, c, d) →
      a ≤ mnx ∧ b ≤ mny ∧ mxx ≤ c ∧ mxy ≤ d ∧
      ∀ m : Nat, m < fuel → i + (m : Int) * (dim : Int) < outerLen →
        a ≤ dget data (i + (m : Int) * (dim : Int)) ∧
        dget data (i + (m : Int) * (dim : Int)) ≤ c ∧
        b ≤ dget data (i + (m : Int) * (dim : Int) + 1) ∧
        dget data (i + (m : Int) * (dim : Int) + 1) ≤ d := by
  intro fuel
  induction fuel with
  | zero =>
    intro i mnx mny mxx mxy a b c d h
    simp only [computeZParamsGo, Prod.mk.injEq] at h
    obtain ⟨rfl, rfl, rfl, rfl⟩ := h
    exact ⟨rle_refl _, rle_refl _, rle_refl _, rle_refl _,
      fun m hm _ => absurd hm (Nat.not_lt_zero m)⟩
  | succ f ih =>
    intro i mnx mny mxx mxy a b c d h
    simp only [computeZParamsGo] at h
    by_cases hlt : i < outerLen
    · rw [if_pos hlt] at h
      obtain ⟨h1, h2, h3, h4, h5⟩ := ih (i + (dim : Int)) _ _ _ _ a b c d h
      have hmnx1 : (if dget data i < mnx then dget data i else mnx) ≤ mnx := by
        split
        · exact rle_of_lt (by assumption)
        · exact rle_refl _
      have hmnx2 : (if dget data i < mnx then dget data i else mnx) ≤ dget data i := by
        split
        · exact rle_refl _
        · exact rnot_lt.mp (by assumption)
      have hmny1 : (if dget data (i + 1) < mny then dget data (i + 1) else mny) ≤ mny := by
        split
        · exact rle_of_lt (by assumption)
        · exact rle_refl _
      have hmny2 : (if dget data (i + 1) < mny then dget data (i + 1) else mny) ≤
          dget data (i + 1) := by
        split
        · exact rle_refl _
        · exact rnot_lt.mp (by assumption)
      have hmxx1 : mxx ≤ (if mxx < dget data i then dget data i else mxx) := by
        split
        · exact rle_of_lt (by assumption)
        · exact rle_refl _
      have hmxx2 : dget data i ≤ (if mxx < dget data i then dget data i else mxx) := by
        split
        · exact rle_refl _
        · exact rnot_lt.mp (by assumption)
      have hmxy1 : mxy ≤ (if mxy < dget data (i + 1) then dget data (i + 1) else mxy) := by
        split
        · exact rle_of_lt (by assumption)
        · exact rle_refl _
      have hmxy2 : dget data (i + 1) ≤
          (if mxy < dget data (i + 1) then dget data (i + 1) else mxy) := by
        split
        · exact rle_refl _
        · exact rnot_lt.mp (by assumption)
      refine ⟨rle_trans h1 hmnx1, rle_trans h2 hmny1, rle_trans hmxx1 h3,
        rle_trans hmxy1 h4, ?_⟩
      intro m hm hIdx
      rcases m with _ | m'
      · have hEq0 : i + ((0 : Nat) : Int) * (dim : Int) = i := by push_cast; ring
        rw [hEq0]
        exact ⟨rle_trans h1 hmnx2, rle_trans hmxx2 h3,
          rle_trans h2 hmny2, rle_trans hmxy2 h4⟩
      · have hEq : i + ((m' + 1 : Nat) : Int) * (dim : Int) =
            i + (dim : Int) + (m' : Int) * (dim : Int) := by push_cast; ring
        rw [hEq]
        exact h5 m' (Nat.lt_of_succ_lt_succ hm) (by rw [← hEq]; exact hIdx)
    · rw [if_neg hlt] at h
      simp only [Prod.mk.injEq] at h
      obtain ⟨rfl, rfl, rfl, rfl⟩ := h
      refine ⟨rle_refl _, rle_refl _, rle_refl _, rle_refl _, ?_⟩
      intro m _ hIdx
      exfalso
      have h0 : (0 : Int) ≤ (m : Int) * (dim : Int) :=
        mul_nonneg (Int.natCast_nonneg m) (Int.natCast_nonneg dim)
      have h1 : outerLen ≤ i := Int.not_lt.mp hlt
      linarith

theorem computeZParamsGo_const (data : List R) (dim : Nat) (outerLen : Int) (x0 y0 : R) :
    ∀ (fuel : Nat) (i : Int),
      (∀ m : Nat, m < fuel → i + (m : Int) * (dim : Int) < outerLen →
        dget data (i + (m : Int) * (dim : Int)) = x0 ∧
        dget data (i + (m : Int) * (dim : Int) + 1) = y0) →
      computeZParamsGo data dim outerLen fuel i x0 y0 x0 y0 = (x0, y0, x0, y0) := by
  intro fuel
  induction fuel with
  | zero => intro i _; rfl
  | succ f ih =>
    intro i h
    simp only [computeZParamsGo]
    by_cases hlt : i < outerLen
    · rw [if_pos hlt]
      have h0 := h 0 (Nat.succ_pos f) (by simpa using hlt)
      simp only [Nat.cast_zero, zero_mul, add_zero] at h0
      rw [h0.1, h0.2, if_neg (rlt_irrefl x0), if_neg (rlt_irrefl y0)]
      apply ih
      intro m hm hIdx
      have hEq : i + ((m + 1 : Nat) : Int) * (dim : Int) =
          i + (dim : Int) + (m : Int) * (dim : Int) := by push_cast; ring
      have h2 := h (m + 1) (Nat.succ_lt_succ hm) (by rw [hEq]; exact hIdx)
      rw [hEq] at h2
      exact h2
    · rw [if_neg hlt]

theorem computeZSize_ne_zero (positions : List R) (holeIndices : Option (List Nat))
    (dim : Nat) (hdim : 1 ≤ dim)
    (houter : outerLenOf positions holeIndices dim ≤ (positions.length : Int))
    (a b c d : R)
    (hr : computeZParamsGo positions dim (outerLenOf positions holeIndices dim)
      (positions.length + 1) dim (dget positions 0) (dget positions 1)
      (dget positions 0) (dget positions 1) = (a, b, c, d)) :
    rmax (c - a) (d - b) ≠ 0 ↔
      ∃ k : Nat, ((k * dim : Nat) : Int) < outerLenOf positions holeIndices dim ∧
        (dget positions ((k * dim : Nat) : Int) ≠ dget positions 0 ∨
         dget positions (((k * dim : Nat) : Int) + 1) ≠ dget positions 1) := by
  constructor
  · intro hne
    by_contra hnex
    push_neg at hnex
    have hconst := computeZParamsGo_const positions dim
      (outerLenOf positions holeIndices dim) (dget positions 0) (dget positions 1)
      (positions.length + 1) dim ?_
    · rw [hconst] at hr
      simp only [Prod.mk.injEq] at hr
      obtain ⟨rfl, rfl, rfl, rfl⟩ := hr
      apply hne
      rw [rsub_self, rsub_self]
      simp only [rmax]
      rw [if_neg (rlt_irrefl (0 : R))]
    · intro m _ hIdx
      have hEq : (dim : Int) + (m : Int) * (dim : Int) = (((m + 1) * dim : Nat) : Int) := by
        push_cast; ring
      rw [hEq]
      exact hnex ((m + 1)) (by rw [← hEq]; exact hIdx)
  · rintro ⟨k, hklt, hne⟩
    rcases Nat.eq_zero_or_pos k with rfl | hkpos
    · exfalso
      have h0 : ((0 * dim : Nat) : Int) = 0 := by simp
      rcases hne with h | h
      · exact h (by rw [h0])
      · exact h (by rw [h0, zero_add])
    · obtain ⟨h1, h2, h3, h4, h5⟩ := computeZParamsGo_bounds positions dim
        (outerLenOf positions holeIndices dim) (positions.length + 1) dim
        (dget positions 0) (dget positions 1) (dget positions 0) (dget positions 1)
        a b c d hr
      obtain ⟨m, rfl⟩ : ∃ m, k = m + 1 := ⟨k - 1, by omega⟩
      have hlen : ((m + 1) * dim : Nat) < positions.length := by
        have hc := lt_of_lt_of_le hklt houter
        exact_mod_cast hc
      have hmfuel : m < positions.length + 1 := by
        have hle : m + 1 ≤ (m + 1) * dim :=
          Nat.le_mul_of_pos_right (m + 1) (Nat.lt_of_lt_of_le Nat.zero_lt_one hdim)
        omega
      have hIdxEq : (((m + 1) * dim : Nat) : Int) =
          (dim : Int) + (m : Int) * (dim : Int) := by push_cast; ring
      have hIdxLt : (dim : Int) + (m : Int) * (dim : Int) <
          outerLenOf positions holeIndices dim := by
        rw [← hIdxEq]; exact hklt
      obtain ⟨hxa, hxc, hyb, hyd⟩ := h5 m hmfuel hIdxLt
      rw [hIdxEq] at hne
      rcases hne with hnex | hney
      · have hac : a < c := by
          rcases rlt_or_gt_of_ne hnex with hlt | hlt
          · exact rlt_of_le_of_lt hxa (rlt_of_lt_of_le hlt h3)
          · exact rlt_of_le_of_lt h1 (rlt_of_lt_of_le hlt hxc)
        have hpos : (0 : R) < c - a := rsub_pos.mpr hac
        exact rne_of_gt (rlt_of_lt_of_le hpos (rle_rmax_left _ _))
      · have hbd : b < d := by
          rcases rlt_or_gt_of_ne hney with hlt | hlt
          · exact rlt_of_le_of_lt hyb (rlt_of_lt_of_le hlt h4)
          · exact rlt_of_le_of_lt h2 (rlt_of_lt_of_le hlt hyd)
        have hpos : (0 : R) < d - b := rsub_pos.mpr hbd
        exact rne_of_gt (rlt_of_lt_of_le hpos (rle_rmax_right _ _))

set_option maxRecDepth 20000 in
/-- C7 (counterexample): 81 coincident vertices with stride 2 put the
coordinate count, 162, above the 80 × stride threshold of 160, yet the
bounding box of the outer ring is degenerate, `invSize` is set to 0, and the
falsy z-parameters make the engine fall back to the plain `isEar` scan: the
size threshold alone does not decide z-index usage. -/
theorem zIndex_threshold_counterexample :
    80 * 2 < (List.replicate 162 (0 : R)).length ∧
    zpTruthy (computeZParams (List.replicate 162 (0 : R)) none 2) = false := by
  constructor
  · decide
  · decide

/-- C7 (amended): with a valid stride and an outer span inside the data, the
z-order machinery is armed (`zpTruthy` of the computed z-parameters) iff the
coordinate count exceeds 80 × stride AND some outer-span vertex differs from
the first vertex — the threshold of the claim plus a nondegenerate outer
bounding box, without which `invSize` is 0 and the plain scan is used. -/
theorem zIndex_usage_characterization (positions : List R)
    (holeIndices : Option (List Nat)) (dim : Nat) (hdim : 1 ≤ dim)
    (houter : outerLenOf positions holeIndices dim ≤ (positions.length : Int)) :
    zpTruthy (computeZParams positions holeIndices dim) = true ↔
      (80 * dim < positions.length ∧
       ∃ k : Nat, ((k * dim : Nat) : Int) < outerLenOf positions holeIndices dim ∧
         (dget positions ((k * dim : Nat) : Int) ≠ dget positions 0 ∨
          dget positions (((k * dim : Nat) : Int) + 1) ≠ dget positions 1)) := by
  simp only [computeZParams]
  by_cases hth : 80 * dim < positions.length
  · rw [if_pos hth]
    obtain ⟨a, b, c, d, hr⟩ : ∃ a b c d,
        computeZParamsGo positions dim (outerLenOf positions holeIndices dim)
          (positions.length + 1) dim (dget positions 0) (dget positions 1)
          (dget positions 0) (dget positions 1) = (a, b, c, d) := ⟨_, _, _, _, rfl⟩
    rw [hr]
    dsimp only
    have hiff := computeZSize_ne_zero positions holeIndices dim hdim houter a b c d hr
    simp only [zpTruthy, decide_eq_true_eq]
    by_cases hsz : rmax (c - a) (d - b) ≠ 0
    · rw [if_pos hsz]
      constructor
      · intro _
        exact ⟨hth, hiff.mp hsz⟩
      · intro _
        exact rone_div_ne_zero hsz
    · rw [if_neg hsz]
      rw [not_not] at hsz
      constructor
      · intro h0
        exact absurd rfl h0
      · rintro ⟨-, hex⟩
        exact absurd hsz (hiff.mpr hex)
  · rw [if_neg hth]
    simp only [zpTruthy, Bool.false_eq_true, false_iff]
    rintro ⟨h, -⟩
    exact hth h

/-- Witness for the amended C7 characterization at the 8-coordinate square,
where both sides of the equivalence are false (below the threshold). -/
theorem zIndex_usage_characterization_witness :
    1 ≤ 2 ∧
    outerLenOf [0, 0, 10, 0, 10, 10, 0, 10] none 2 ≤
      (([0, 0, 10, 0, 10, 10, 0, 10] : List R).length : Int) ∧
    (zpTruthy (computeZParams [0, 0, 10, 0, 10, 10, 0, 10] none 2) = true ↔
      (80 * 2 < ([0, 0, 10, 0, 10, 10, 0, 10] : List R).length ∧
       ∃ k : Nat, ((k * 2 : Nat) : Int) < outerLenOf [0, 0, 10, 0, 10, 10, 0, 10] none 2 ∧
         (dget [0, 0, 10, 0, 10, 10, 0, 10] ((k * 2 : Nat) : Int) ≠
            dget [0, 0, 10, 0, 10, 10, 0, 10] 0 ∨
          dget [0, 0, 10, 0, 10, 10, 0, 10] (((k * 2 : Nat) : Int) + 1) ≠
            dget [0, 0, 10, 0, 10, 10, 0, 10] 1))) :=
  ⟨by decide, by decide,
    zIndex_usage_characterization [0, 0, 10, 0, 10, 10, 0, 10] none 2
      (by decide) (by decide)⟩

theorem ringArena_length (g : Nat → Nat × R × R) (j : Nat) :
    (ringArena g j).length = j := by
  simp [ringArena]

theorem nd_ringArena (g : Nat → Nat × R × R) (j k : Nat) (h : k < j) :
    nd (ringArena g j) k =
      { i := (g k).1, x := (g k).2.1, y := (g k).2.2,
        prev := if k = 0 then j - 1 else k - 1,
        next := if k = j - 1 then 0 else k + 1,
        z := none, prevZ := none, nextZ := none, steiner := false } := by
  simp [nd, ringArena, List.getD_eq_getElem?_getD, List.getElem?_map, List.getElem?_range, h]

theorem getElem_eq_nd (A : Arena) (i : Nat) (h : i < A.length) : A[i] = nd A i := by
  simp [nd, List.getD_eq_getElem?_getD, List.getElem?_eq_getElem h]

theorem insertNode_ring (g : Nat → Nat × R × R) (j : Nat) (hj : 1 ≤ j) :
    insertNode (g j).1 (g j).2.1 (g j).2.2 (some (j - 1)) (ringArena g j) =
      (ringArena g (j + 1), j) := by
  have hlen : (ringArena g j).length = j := ringArena_length g j
  have hjm : j - 1 < j := by omega
  simp only [insertNode]
  rw [nd_ringArena g j (j - 1) hjm]
  dsimp only
  rw [if_pos rfl, hlen]
  simp only [Prod.mk.injEq]
  refine ⟨?_, trivial⟩
  have hlenA1 : (ringArena g j ++
      [({ i := (g j).1, x := (g j).2.1, y := (g j).2.2, prev := j - 1, next := 0,
          z := none, prevZ := none, nextZ := none, steiner := false } : ENode)]).length = j + 1 := by
    simp [hlen]
  have hlen3 : (mdf (mdf (ringArena g j ++
      [({ i := (g j).1, x := (g j).2.1, y := (g j).2.2, prev := j - 1, next := 0,
          z := none, prevZ := none, nextZ := none, steiner := false } : ENode)]) 0
      (fun n => { n with prev := j })) (j - 1)
      (fun n => { n with next := j })).length = j + 1 := by
    rw [mdf_length, mdf_length, hlenA1]
  apply List.ext_getElem (by rw [hlen3, ringArena_length])
  intro k h1 h2
  rw [getElem_eq_nd _ _ h1, getElem_eq_nd _ _ h2]
  have hk : k < j + 1 := by rw [hlen3] at h1; exact h1
  rw [nd_ringArena g (j + 1) k hk]
  by_cases hkj : k = j
  · subst hkj
    rw [nd_mdf_ne _ _ _ _ (by omega), nd_mdf_ne _ _ _ _ (by omega)]
    have hthis := nd_append_at (ringArena g k)
      ({ i := (g k).1, x := (g k).2.1, y := (g k).2.2, prev := k - 1, next := 0,
         z := none, prevZ := none, nextZ := none, steiner := false } : ENode) []
    rw [hlen] at hthis
    rw [hthis]
    simp only [ENode.mk.injEq]
    refine ⟨trivial, trivial, trivial, by rw [if_neg (by omega)],
      by rw [Nat.add_sub_cancel, if_pos rfl], trivial, trivial, trivial, trivial⟩
  · have hk' : k < j := by omega
    by_cases hk0 : k = 0
    · subst hk0
      by_cases hj1 : j = 1
      · subst hj1
        rw [show (1 : Nat) - 1 = 0 from rfl]
        rw [nd_mdf_self _ _ _ (by rw [mdf_length, hlenA1]; omega)]
        rw [nd_mdf_self _ _ _ (by rw [hlenA1]; omega)]
        rw [nd_append_lt _ _ _ (by rw [hlen]; omega)]
        rw [nd_ringArena g 1 0 (by omega)]
        simp
      · rw [nd_mdf_ne _ _ _ _ (by omega)]
        rw [nd_mdf_self _ _ _ (by rw [hlenA1]; omega)]
        rw [nd_append_lt _ _ _ (by rw [hlen]; omega)]
        rw [nd_ringArena g j 0 (by omega)]
        simp only [ENode.mk.injEq]
        refine ⟨trivial, trivial, trivial, by simp,
          by rw [if_neg (by omega), if_neg (by omega)], trivial, trivial, trivial, trivial⟩
    · by_cases hkj1 : k = j - 1
      · have hj2 : 2 ≤ j := by omega
        subst hkj1
        rw [nd_mdf_self _ _ _ (by rw [mdf_length, hlenA1]; omega)]
        rw [nd_mdf_ne _ _ _ _ (by omega)]
        rw [nd_append_lt _ _ _ (by rw [hlen]; omega)]
        rw [nd_ringArena g j (j - 1) (by omega)]
        simp only [ENode.mk.injEq]
        refine ⟨trivial, trivial, trivial, by rw [if_neg (by omega), if_neg (by omega)],
          by rw [if_neg (by omega)]; omega, trivial, trivial, trivial, trivial⟩
      · rw [nd_mdf_ne _ _ _ _ (by omega), nd_mdf_ne _ _ _ _ (by omega)]
        rw [nd_append_lt _ _ _ (by rw [hlen]; exact hk')]
        rw [nd_ringArena g j k hk']
        simp only [ENode.mk.injEq]
        refine ⟨trivial, trivial, trivial, by rw [if_neg hk0, if_neg hk0],
          by rw [if_neg hkj1, if_neg (by omega)], trivial, trivial, trivial, trivial⟩

theorem insertFwdGo_ring (data : List R) (dim : Nat) (start : Int) (n : Nat)
    (g : Nat → Nat × R × R)
    (hg : ∀ k, g k = ((start + (k : Int) * dim).toNat,
      dget data (start + (k : Int) * dim), dget data (start + (k : Int) * dim + 1)))
    (hdim : 1 ≤ dim) :
    ∀ (fuel j : Nat), 1 ≤ j → j ≤ n → n - j ≤ fuel →
      insertFwdGo data dim (start + (n : Int) * dim) fuel (start + (j : Int) * dim)
        (some (j - 1)) (ringArena g j) =
      (ringArena g n, some (n - 1)) := by
  intro fuel
  induction fuel with
  | zero =>
    intro j hj1 hjn hfuel
    have hjn2 : j = n := by omega
    subst hjn2
    rfl
  | succ f ih =>
    intro j hj1 hjn hfuel
    by_cases hlt : j < n
    · simp only [insertFwdGo]
      rw [if_pos (by
        have h1 : ((j : Int)) * dim < (n : Int) * dim := by
          have hd : (0 : Int) < (dim : Int) := by exact_mod_cast hdim
          have hjl : (j : Int) < (n : Int) := by exact_mod_cast hlt
          exact mul_lt_mul_of_pos_right hjl hd
        linarith)]
      have h1 : (start + (j : Int) * dim).toNat = (g j).1 := by rw [hg]
      have h2 : dget data (start + (j : Int) * dim) = (g j).2.1 := by rw [hg]
      have h3 : dget data (start + (j : Int) * dim + 1) = (g j).2.2 := by rw [hg]
      rw [h1, h2, h3, insertNode_ring g j hj1]
      have ih2 := ih (j + 1) (by omega) (by omega) (by omega)
      rw [Nat.add_sub_cancel] at ih2
      have hc : start + ((j + 1 : Nat) : Int) * dim = start + (j : Int) * dim + dim := by
        push_cast; ring
      rw [hc] at ih2
      exact ih2
    · have hjn2 : j = n := by omega
      subst hjn2
      simp only [insertFwdGo]
      rw [if_neg (lt_irrefl _)]

theorem insertFwdGo_closed (data : List R) (dim : Nat) (start : Int) (n : Nat)
    (g : Nat → Nat × R × R)
    (hg : ∀ k, g k = ((start + (k : Int) * dim).toNat,
      dget data (start + (k : Int) * dim), dget data (start + (k : Int) * dim + 1)))
    (hdim : 1 ≤ dim) (hn : 1 ≤ n) (fuel : Nat) (hfuel : n ≤ fuel) :
    insertFwdGo data dim (start + (n : Int) * dim) fuel start none [] =
      (ringArena g n, some (n - 1)) := by
  rcases fuel with _ | f
  · omega
  · simp only [insertFwdGo]
    rw [if_pos (by
      have hprod : (0 : Int) < (n : Int) * dim := by
        have h1 : (0 : Int) < (n : Int) := by exact_mod_cast hn
        have h2 : (0 : Int) < (dim : Int) := by exact_mod_cast hdim
        exact mul_pos h1 h2
      linarith)]
    simp only [insertNode, List.length_nil, List.nil_append]
    have hring1 : ringArena g 1 =
        [({ i := start.toNat, x := dget data start, y := dget data (start + 1),
            prev := 0, next := 0, z := none, prevZ := none, nextZ := none,
            steiner := false } : ENode)] := by
      simp only [ringArena, show List.range 1 = [0] from rfl, List.map_cons, List.map_nil]
      rw [hg 0]
      norm_num
    rw [← hring1]
    have hrun := insertFwdGo_ring data dim start n g hg hdim f 1 le_rfl hn (by omega)
    rw [show (1 : Nat) - 1 = 0 from rfl] at hrun
    have hc : start + ((1 : Nat) : Int) * dim = start + (dim : Int) := by push_cast; ring
    rw [hc] at hrun
    exact hrun

theorem insertRevGo_ring (data : List R) (dim : Nat) (start : Int) (n : Nat)
    (g : Nat → Nat × R × R)
    (hg : ∀ k, g k = ((start + ((n - 1 - k : Nat) : Int) * dim).toNat,
      dget data (start + ((n - 1 - k : Nat) : Int) * dim),
      dget data (start + ((n - 1 - k : Nat) : Int) * dim + 1)))
    (hdim : 1 ≤ dim) :
    ∀ (fuel j : Nat), 1 ≤ j → j ≤ n → n - j ≤ fuel →
      insertRevGo data dim start fuel (start + ((n : Int) - j - 1) * dim)
        (some (j - 1)) (ringArena g j) =
      (ringArena g n, some (n - 1)) := by
  intro fuel
  induction fuel with
  | zero =>
    intro j hj1 hjn hfuel
    have hjn2 : j = n := by omega
    subst hjn2
    rfl
  | succ f ih =>
    intro j hj1 hjn hfuel
    by_cases hlt : j < n
    · simp only [insertRevGo]
      rw [if_pos (by
        have hd : (0 : Int) ≤ (dim : Int) := by positivity
        have hnn : (0 : Int) ≤ ((n : Int) - j - 1) := by
          have : (j : Int) < (n : Int) := by exact_mod_cast hlt
          omega
        have := mul_nonneg hnn hd
        linarith)]
      have hIdx : ((n - 1 - j : Nat) : Int) = (n : Int) - j - 1 := by omega
      have h1 : (start + ((n : Int) - j - 1) * dim).toNat = (g j).1 := by
        rw [hg j, hIdx]
      have h2 : dget data (start + ((n : Int) - j - 1) * dim) = (g j).2.1 := by
        rw [hg j, hIdx]
      have h3 : dget data (start + ((n : Int) - j - 1) * dim + 1) = (g j).2.2 := by
        rw [hg j, hIdx]
      rw [h1, h2, h3, insertNode_ring g j hj1]
      have ih2 := ih (j + 1) (by omega) (by omega) (by omega)
      rw [Nat.add_sub_cancel] at ih2
      have hc : start + ((n : Int) - (j + 1 : Nat) - 1) * dim =
          start + ((n : Int) - j - 1) * dim - dim := by push_cast; ring
      rw [hc] at ih2
      exact ih2
    · have hjn2 : j = n := by omega
      subst hjn2
      simp only [insertRevGo]
      rw [if_neg (by
        have hd : (0 : Int) < (dim : Int) := by exact_mod_cast hdim
        have he1 : ((j : Int) - j - 1) * dim = -dim := by ring
        rw [he1]
        omega)]

theorem insertRevGo_closed (data : List R) (dim : Nat) (start : Int) (n : Nat)
    (g : Nat → Nat × R × R)
    (hg : ∀ k, g k = ((start + ((n - 1 - k : Nat) : Int) * dim).toNat,
      dget data (start + ((n - 1 - k : Nat) : Int) * dim),
      dget data (start + ((n - 1 - k : Nat) : Int) * dim + 1)))
    (hdim : 1 ≤ dim) (hn : 1 ≤ n) (fuel : Nat) (hfuel : n ≤ fuel) :
    insertRevGo data dim start fuel (start + (n : Int) * dim - dim) none [] =
      (ringArena g n, some (n - 1)) := by
  rcases fuel with _ | f
  · omega
  · simp only [insertRevGo]
    rw [if_pos (by
      have hnn : (0 : Int) ≤ ((n : Int) - 1) := by
        have : (1 : Int) ≤ (n : Int) := by exact_mod_cast hn
        omega
      have hd : (0 : Int) ≤ (dim : Int) := by positivity
      have := mul_nonneg hnn hd
      have hexp : start + (n : Int) * dim - dim = start + ((n : Int) - 1) * dim := by ring
      rw [hexp]
      linarith)]
    have hIdx0 : ((n - 1 - 0 : Nat) : Int) = (n : Int) - 1 := by omega
    have hring1 : ringArena g 1 =
        [({ i := (start + (n : Int) * dim - dim).toNat,
            x := dget data (start + (n : Int) * dim - dim),
            y := dget data (start + (n : Int) * dim - dim + 1),
            prev := 0, next := 0, z := none, prevZ := none, nextZ := none,
            steiner := false } : ENode)] := by
      simp only [ringArena, show List.range 1 = [0] from rfl, List.map_cons, List.map_nil]
      rw [hg 0, hIdx0]
      have hexp : start + ((n : Int) - 1) * dim = start + (n : Int) * dim - dim := by ring
      rw [hexp]
      norm_num
    simp only [insertNode, List.length_nil, List.nil_append]
    rw [← hring1]
    have hrun := insertRevGo_ring data dim start n g hg hdim f 1 le_rfl hn (by omega)
    rw [show (1 : Nat) - 1 = 0 from rfl] at hrun
    have hc : start + ((n : Int) - (1 : Nat) - 1) * dim =
        start + (n : Int) * dim - dim - dim := by push_cast; ring
    rw [hc] at hrun
    exact hrun

theorem removeNode_last_next (g : Nat → Nat × R × R) (n : Nat) (hn : 1 ≤ n) :
    (nd (removeNode (ringArena g n) (n - 1)) (n - 1)).next = 0 := by
  simp only [removeNode]
  rw [nd_ringArena g n (n - 1) (by omega)]
  dsimp only
  rw [if_pos rfl]
  by_cases hn1 : n = 1
  · subst hn1
    rw [show (1 : Nat) - 1 = 0 from rfl]
    rw [if_pos rfl]
    rw [nd_mdf_self _ _ _ (by rw [mdf_length, ringArena_length]; omega)]
  · rw [if_neg (by omega)]
    rw [nd_mdf_ne _ _ _ _ (by omega)]
    rw [nd_mdf_ne _ _ _ _ (by omega)]
    rw [nd_ringArena g n (n - 1) (by omega)]
    dsimp only
    rw [if_pos rfl]

theorem linkedList_closed_fwd (data : List R) (start : Int) (dim : Nat) (clockwise : Bool)
    (n : Nat) (g : Nat → Nat × R × R)
    (hg : ∀ k, g k = ((start + (k : Int) * dim).toNat,
      dget data (start + (k : Int) * dim), dget data (start + (k : Int) * dim + 1)))
    (hdim : 1 ≤ dim) (hn : 1 ≤ n)
    (hcw : clockwise = decide (getPolygonSignedArea data start (start + (n : Int) * dim) dim < 0)) :
    linkedList data start (start + (n : Int) * dim) dim clockwise none [] =
      if (g (n - 1)).2.1 = (g 0).2.1 ∧ (g (n - 1)).2.2 = (g 0).2.2
      then (removeNode (ringArena g n) (n - 1), some 0)
      else (ringArena g n, some (n - 1)) := by
  have hnext0 := removeNode_last_next g n hn
  simp only [linkedList]
  rw [if_pos hcw]
  rw [show start + (n : Int) * dim - start = ((n * dim : Nat) : Int) from by push_cast; ring]
  rw [Int.toNat_natCast]
  rw [insertFwdGo_closed data dim start n g hg hdim hn (n * dim + 1) (by
    have h1 : n * 1 ≤ n * dim := Nat.mul_le_mul_left n hdim
    omega)]
  dsimp only
  rw [nd_ringArena g n (n - 1) (by omega)]
  dsimp only
  rw [if_pos rfl]
  rw [nd_ringArena g n 0 (by omega)]
  by_cases hco : (g (n - 1)).2.1 = (g 0).2.1 ∧ (g (n - 1)).2.2 = (g 0).2.2
  · have heq : equals
        { i := (g (n - 1)).1, x := (g (n - 1)).2.1, y := (g (n - 1)).2.2,
          prev := if n - 1 = 0 then n - 1 else n - 1 - 1, next := 0,
          z := none, prevZ := none, nextZ := none, steiner := false }
        { i := (g 0).1, x := (g 0).2.1, y := (g 0).2.2,
          prev := if 0 = 0 then n - 1 else 0 - 1, next := if 0 = n - 1 then 0 else 0 + 1,
          z := none, prevZ := none, nextZ := none, steiner := false } = true := by
      simp only [equals, Bool.and_eq_true, decide_eq_true_eq]
      exact hco
    rw [if_pos heq, if_pos hco]
    rw [hnext0]
  · have heq : ¬(equals
        { i := (g (n - 1)).1, x := (g (n - 1)).2.1, y := (g (n - 1)).2.2,
          prev := if n - 1 = 0 then n - 1 else n - 1 - 1, next := 0,
          z := none, prevZ := none, nextZ := none, steiner := false }
        { i := (g 0).1, x := (g 0).2.1, y := (g 0).2.2,
          prev := if 0 = 0 then n - 1 else 0 - 1, next := if 0 = n - 1 then 0 else 0 + 1,
          z := none, prevZ := none, nextZ := none, steiner := false } = true) := by
      simp only [equals, Bool.and_eq_true, decide_eq_true_eq]
      exact hco
    rw [if_neg heq, if_neg hco]

theorem linkedList_closed_rev (data : List R) (start : Int) (dim : Nat) (clockwise : Bool)
    (n : Nat) (g : Nat → Nat × R × R)
    (hg : ∀ k, g k = ((start + ((n - 1 - k : Nat) : Int) * dim).toNat,
      dget data (start + ((n - 1 - k : Nat) : Int) * dim),
      dget data (start + ((n - 1 - k : Nat) : Int) * dim + 1)))
    (hdim : 1 ≤ dim) (hn : 1 ≤ n)
    (hcw : clockwise ≠ decide (getPolygonSignedArea data start (start + (n : Int) * dim) dim < 0)) :
    linkedList data start (start + (n : Int) * dim) dim clockwise none [] =
      if (g (n - 1)).2.1 = (g 0).2.1 ∧ (g (n - 1)).2.2 = (g 0).2.2
      then (removeNode (ringArena g n) (n - 1), some 0)
      else (ringArena g n, some (n - 1)) := by
  have hnext0 := removeNode_last_next g n hn
  simp only [linkedList]
  rw [if_neg hcw]
  rw [show start + (n : Int) * dim - start = ((n * dim : Nat) : Int) from by push_cast; ring]
  rw [Int.toNat_natCast]
  rw [insertRevGo_closed data dim start n g hg hdim hn (n * dim + 1) (by
    have h1 : n * 1 ≤ n * dim := Nat.mul_le_mul_left n hdim
    omega)]
  dsimp only
  rw [nd_ringArena g n (n - 1) (by omega)]
  dsimp only
  rw [if_pos rfl]
  rw [nd_ringArena g n 0 (by omega)]
  by_cases hco : (g (n - 1)).2.1 = (g 0).2.1 ∧ (g (n - 1)).2.2 = (g 0).2.2
  · have heq : equals
        { i := (g (n - 1)).1, x := (g (n - 1)).2.1, y := (g (n - 1)).2.2,
          prev := if n - 1 = 0 then n - 1 else n - 1 - 1, next := 0,
          z := none, prevZ := none, nextZ := none, steiner := false }
        { i := (g 0).1, x := (g 0).2.1, y := (g 0).2.2,
          prev := if 0 = 0 then n - 1 else 0 - 1, next := if 0 = n - 1 then 0 else 0 + 1,
          z := none, prevZ := none, nextZ := none, steiner := false } = true := by
      simp only [equals, Bool.and_eq_true, decide_eq_true_eq]
      exact hco
    rw [if_pos heq, if_pos hco]
    rw [hnext0]
  · have heq : ¬(equals
        { i := (g (n - 1)).1, x := (g (n - 1)).2.1, y := (g (n - 1)).2.2,
          prev := if n - 1 = 0 then n - 1 else n - 1 - 1, next := 0,
          z := none, prevZ := none, nextZ := none, steiner := false }
        { i := (g 0).1, x := (g 0).2.1, y := (g 0).2.2,
          prev := if 0 = 0 then n - 1 else 0 - 1, next := if 0 = n - 1 then 0 else 0 + 1,
          z := none, prevZ := none, nextZ := none, steiner := false } = true) := by
      simp only [equals, Bool.and_eq_true, decide_eq_true_eq]
      exact hco
    rw [if_neg heq, if_neg hco]

theorem linkedList_empty (data : List R) (start : Int) (dim : Nat) (clockwise : Bool)
    (hdim : 1 ≤ dim) :
    linkedList data start start dim clockwise none [] = ([], none) := by
  simp only [linkedList]
  by_cases hcw : clockwise = decide (getPolygonSignedArea data start start dim < 0)
  · rw [if_pos hcw, sub_self]
    simp only [Int.toNat_zero, insertFwdGo]
    rw [if_neg (lt_irrefl start)]
  · rw [if_neg hcw, sub_self]
    simp only [Int.toNat_zero, insertRevGo]
    rw [if_neg (by omega : ¬ start ≤ start - (dim : Int))]

/-- C5: the ring-builder contract.  An empty span returns no ring; a span of
`n ≥ 1` vertices is inserted in forward index order exactly when the desired
winding flag equals the sign-derived natural winding (`clockwise =
(signed area < 0)`) and in reverse index order otherwise, yielding the
`ringArena` of the corresponding vertex assignment; afterwards, the trailing
node is dropped (by `removeNode`, returning the head node 0) precisely when
its coordinates coincide with the head's, and the ring is returned at the
last inserted node otherwise. -/
theorem linkedList_contract (data : List R) (start : Int) (dim : Nat) (clockwise : Bool)
    (n : Nat) (hdim : 1 ≤ dim) :
    (n = 0 → linkedList data start (start + (n : Int) * dim) dim clockwise none [] =
      ([], none)) ∧
    (1 ≤ n →
      linkedList data start (start + (n : Int) * dim) dim clockwise none [] =
        (let g := if clockwise =
            decide (getPolygonSignedArea data start (start + (n : Int) * dim) dim < 0)
          then fun k : Nat => ((start + (k : Int) * dim).toNat,
            dget data (start + (k : Int) * dim), dget data (start + (k : Int) * dim + 1))
          else fun k : Nat => ((start + ((n - 1 - k : Nat) : Int) * dim).toNat,
            dget data (start + ((n - 1 - k : Nat) : Int) * dim),
            dget data (start + ((n - 1 - k : Nat) : Int) * dim + 1));
        if (g (n - 1)).2.1 = (g 0).2.1 ∧ (g (n - 1)).2.2 = (g 0).2.2
        then (removeNode (ringArena g n) (n - 1), some 0)
        else (ringArena g n, some (n - 1)))) := by
  constructor
  · intro h0
    subst h0
    rw [show start + ((0 : Nat) : Int) * dim = start from by push_cast; ring]
    exact linkedList_empty data start dim clockwise hdim
  · intro hn
    by_cases hcw : clockwise =
        decide (getPolygonSignedArea data start (start + (n : Int) * dim) dim < 0)
    · rw [linkedList_closed_fwd data start dim clockwise n _ (fun k => rfl) hdim hn hcw]
      simp only [if_pos hcw]
    · rw [linkedList_closed_rev data start dim clockwise n _ (fun k => rfl) hdim hn hcw]
      simp only [if_neg hcw]

/-- Witness for the C5 contract at the square with stride 2, four vertices,
desired winding `true`. -/
theorem linkedList_contract_witness :
    ((4 : Nat) = 0 →
      linkedList [0, 0, 10, 0, 10, 10, 0, 10] 0 (0 + ((4 : Nat) : Int) * 2) 2 true none [] =
        ([], none)) ∧
    (1 ≤ (4 : Nat) →
      linkedList [0, 0, 10, 0, 10, 10, 0, 10] 0 (0 + ((4 : Nat) : Int) * 2) 2 true none [] =
        (let g := if true = decide (getPolygonSignedArea [0, 0, 10, 0, 10, 10, 0, 10] 0
            (0 + ((4 : Nat) : Int) * 2) 2 < 0)
          then fun k : Nat => (((0 : Int) + (k : Int) * 2).toNat,
            dget [0, 0, 10, 0, 10, 10, 0, 10] ((0 : Int) + (k : Int) * 2),
            dget [0, 0, 10, 0, 10, 10, 0, 10] ((0 : Int) + (k : Int) * 2 + 1))
          else fun k : Nat => (((0 : Int) + ((4 - 1 - k : Nat) : Int) * 2).toNat,
            dget [0, 0, 10, 0, 10, 10, 0, 10] ((0 : Int) + ((4 - 1 - k : Nat) : Int) * 2),
            dget [0, 0, 10, 0, 10, 10, 0, 10] ((0 : Int) + ((4 - 1 - k : Nat) : Int) * 2 + 1));
        if (g (4 - 1)).2.1 = (g 0).2.1 ∧ (g (4 - 1)).2.2 = (g 0).2.2
        then (removeNode (ringArena g 4) (4 - 1), some 0)
        else (ringArena g 4, some (4 - 1)))) :=
  linkedList_contract [0, 0, 10, 0, 10, 10, 0, 10] 0 2 true 4 (by decide)

theorem ringArena_no_coincident (g : Nat → Nat × R × R) (n : Nat)
    (hAdj : ∀ k, k + 1 < n → ¬((g k).2.1 = (g (k + 1)).2.1 ∧ (g k).2.2 = (g (k + 1)).2.2))
    (hLast : ¬((g (n - 1)).2.1 = (g 0).2.1 ∧ (g (n - 1)).2.2 = (g 0).2.2)) :
    ∀ p, p < n →
      equals (nd (ringArena g n) p)
        (nd (ringArena g n) ((nd (ringArena g n) p).next)) = false := by
  intro p hp
  rw [nd_ringArena g n p hp]
  dsimp only
  by_cases hpl : p = n - 1
  · subst hpl
    rw [if_pos rfl, nd_ringArena g n 0 (by omega)]
    exact Bool.eq_false_iff.mpr (by
      simp only [ne_eq, equals, Bool.and_eq_true, decide_eq_true_eq]
      exact hLast)
  · rw [if_neg hpl, nd_ringArena g n (p + 1) (by omega)]
    exact Bool.eq_false_iff.mpr (by
      simp only [ne_eq, equals, Bool.and_eq_true, decide_eq_true_eq]
      exact hAdj p (by omega))

theorem removeNode_ring_eq (g : Nat → Nat × R × R) (n : Nat) (hn : 2 ≤ n) :
    removeNode (ringArena g n) (n - 1) =
      mdf (mdf (ringArena g n) 0 (fun m => { m with prev := n - 1 - 1 }))
        (n - 1 - 1) (fun m => { m with next := 0 }) := by
  simp only [removeNode]
  rw [nd_ringArena g n (n - 1) (by omega)]
  dsimp only
  rw [if_pos rfl, if_neg (by omega)]

theorem removeNode_ring_no_coincident (g : Nat → Nat × R × R) (n : Nat) (hn : 3 ≤ n)
    (hAdj : ∀ k, k + 1 < n → ¬((g k).2.1 = (g (k + 1)).2.1 ∧ (g k).2.2 = (g (k + 1)).2.2))
    (hLast : (g (n - 1)).2.1 = (g 0).2.1 ∧ (g (n - 1)).2.2 = (g 0).2.2) :
    ∀ p, p < n →
      (nd (removeNode (ringArena g n) (n - 1))
        ((nd (removeNode (ringArena g n) (n - 1)) p).next)).prev = p →
      equals (nd (removeNode (ringArena g n) (n - 1)) p)
        (nd (removeNode (ringArena g n) (n - 1))
          ((nd (removeNode (ringArena g n) (n - 1)) p).next)) = false := by
  have hA := removeNode_ring_eq g n (by omega)
  have hL1 : (ringArena g n).length = n := ringArena_length g n
  have hL2 : (mdf (ringArena g n) 0 (fun m => { m with prev := n - 1 - 1 })).length = n := by
    rw [mdf_length, hL1]
  have hnd0 : nd (mdf (mdf (ringArena g n) 0 (fun m => { m with prev := n - 1 - 1 }))
      (n - 1 - 1) (fun m => { m with next := 0 })) 0 =
      { nd (ringArena g n) 0 with prev := n - 1 - 1 } := by
    rw [nd_mdf_ne _ _ _ _ (by omega), nd_mdf_self _ _ _ (by omega)]
  have hndm : nd (mdf (mdf (ringArena g n) 0 (fun m => { m with prev := n - 1 - 1 }))
      (n - 1 - 1) (fun m => { m with next := 0 })) (n - 1 - 1) =
      { nd (ringArena g n) (n - 1 - 1) with next := 0 } := by
    rw [nd_mdf_self _ _ _ (by rw [hL2]; omega), nd_mdf_ne _ _ _ _ (by omega)]
  have hndq : ∀ q, q ≠ 0 → q ≠ n - 1 - 1 →
      nd (mdf (mdf (ringArena g n) 0 (fun m => { m with prev := n - 1 - 1 }))
        (n - 1 - 1) (fun m => { m with next := 0 })) q = nd (ringArena g n) q := by
    intro q hq0 hqm
    rw [nd_mdf_ne _ _ _ _ (fun h => hqm h.symm), nd_mdf_ne _ _ _ _ (fun h => hq0 h.symm)]
  have hxy : ∀ t, t < n →
      (nd (removeNode (ringArena g n) (n - 1)) t).x = (g t).2.1 ∧
      (nd (removeNode (ringArena g n) (n - 1)) t).y = (g t).2.2 := by
    intro t ht
    rw [hA]
    by_cases ht0 : t = 0
    · subst ht0
      rw [hnd0, nd_ringArena g n 0 (by omega)]
      exact ⟨rfl, rfl⟩
    · by_cases htm : t = n - 1 - 1
      · subst htm
        rw [hndm, nd_ringArena g n (n - 1 - 1) (by omega)]
        exact ⟨rfl, rfl⟩
      · rw [hndq t ht0 htm, nd_ringArena g n t ht]
        exact ⟨rfl, rfl⟩
  have hnext : ∀ t, t < n →
      (nd (removeNode (ringArena g n) (n - 1)) t).next =
        if t = n - 1 - 1 then 0 else if t = n - 1 then 0 else t + 1 := by
    intro t ht
    rw [hA]
    by_cases htm : t = n - 1 - 1
    · subst htm
      rw [hndm]
      dsimp only
      rw [if_pos rfl]
    · by_cases ht0 : t = 0
      · subst ht0
        rw [hnd0, nd_ringArena g n 0 (by omega)]
        dsimp only
        rw [if_neg (by omega : ¬(0 : Nat) = n - 1), if_neg htm]
      · rw [hndq t ht0 htm, nd_ringArena g n t ht]
        dsimp only
        rw [if_neg htm]
  have hprev0 : (nd (removeNode (ringArena g n) (n - 1)) 0).prev = n - 1 - 1 := by
    rw [hA, hnd0]
  intro p hp hguard
  rw [hnext p hp] at hguard ⊢
  by_cases hpm : p = n - 1 - 1
  · subst hpm
    rw [if_pos rfl]
    apply Bool.eq_false_iff.mpr
    simp only [ne_eq, equals, Bool.and_eq_true, decide_eq_true_eq]
    rw [(hxy (n - 1 - 1) (by omega)).1, (hxy (n - 1 - 1) (by omega)).2,
      (hxy 0 (by omega)).1, (hxy 0 (by omega)).2]
    have hAdj2 := hAdj (n - 1 - 1) (by omega)
    rw [show n - 1 - 1 + 1 = n - 1 from by omega] at hAdj2
    rintro ⟨h1, h2⟩
    exact hAdj2 ⟨h1.trans hLast.1.symm, h2.trans hLast.2.symm⟩
  · rw [if_neg hpm] at hguard ⊢
    by_cases hp1 : p = n - 1
    · exfalso
      rw [if_pos hp1, hprev0] at hguard
      omega
    · rw [if_neg hp1] at hguard ⊢
      apply Bool.eq_false_iff.mpr
      simp only [ne_eq, equals, Bool.and_eq_true, decide_eq_true_eq]
      rw [(hxy p hp).1, (hxy p hp).2, (hxy (p + 1) (by omega)).1, (hxy (p + 1) (by omega)).2]
      exact hAdj p (by omega)

theorem removeNode_length (A : Arena) (q : Nat) : (removeNode A q).length = A.length := by
  simp only [removeNode]
  rcases (nd A q).prevZ with _ | a <;> rcases (nd A q).nextZ with _ | b <;>
    simp [mdf_length]

/-- C8 (counterexample): on the span `[0,0, 0,0, 1,0, 0,1]` the ring builder
keeps the two coincident leading vertices: the returned ring starts at node
3, node 0 and its successor node 1 remain doubly linked, and they are
coincident — only a trailing duplicate of the start point is ever removed,
interior consecutive duplicates survive. -/
theorem linkedList_coincident_counterexample :
    (linkedList [0, 0, 0, 0, 1, 0, 0, 1] 0 8 2 true none []).2 = some 3 ∧
    (nd (linkedList [0, 0, 0, 0, 1, 0, 0, 1] 0 8 2 true none []).1 0).next = 1 ∧
    (nd (linkedList [0, 0, 0, 0, 1, 0, 0, 1] 0 8 2 true none []).1 1).prev = 0 ∧
    equals (nd (linkedList [0, 0, 0, 0, 1, 0, 0, 1] 0 8 2 true none []).1 0)
      (nd (linkedList [0, 0, 0, 0, 1, 0, 0, 1] 0 8 2 true none []).1 1) = true := by
  decide

/-- C8 (amended): when all consecutive span vertices are pairwise distinct
(the trailing vertex may still coincide with the leading one), no two nodes
that remain doubly linked in the ring built by `linkedList` are coincident:
for every node `p` of the arena whose successor points back at `p`, the
coincidence test with that successor is false.  The unconditional claim is
refuted by `linkedList_coincident_counterexample`: the builder removes only
a trailing duplicate of the start point, interior consecutive duplicates
survive in the ring. -/
theorem linkedList_no_coincident_consecutive (data : List R) (start : Int) (dim : Nat)
    (clockwise : Bool) (n : Nat) (hdim : 1 ≤ dim) (hn : 2 ≤ n)
    (hdist : ∀ k : Nat, k + 1 < n →
      ¬(dget data (start + (k : Int) * dim) = dget data (start + ((k : Int) + 1) * dim) ∧
        dget data (start + (k : Int) * dim + 1) =
          dget data (start + ((k : Int) + 1) * dim + 1))) :
    ∀ p : Nat,
      p < (linkedList data start (start + (n : Int) * dim) dim clockwise none []).1.length →
      (nd (linkedList data start (start + (n : Int) * dim) dim clockwise none []).1
        ((nd (linkedList data start (start + (n : Int) * dim) dim clockwise none []).1 p).next)).prev
        = p →
      equals (nd (linkedList data start (start + (n : Int) * dim) dim clockwise none []).1 p)
        (nd (linkedList data start (start + (n : Int) * dim) dim clockwise none []).1
          ((nd (linkedList data start (start + (n : Int) * dim) dim clockwise none []).1 p).next))
        = false := by
  by_cases hcw : clockwise =
      decide (getPolygonSignedArea data start (start + (n : Int) * dim) dim < 0)
  · have hAdjF : ∀ k : Nat, k + 1 < n →
        ¬(dget data (start + (k : Int) * dim) = dget data (start + ((k + 1 : Nat) : Int) * dim) ∧
          dget data (start + (k : Int) * dim + 1) =
            dget data (start + ((k + 1 : Nat) : Int) * dim + 1)) := by
      intro k hk
      have hc : ((k + 1 : Nat) : Int) = (k : Int) + 1 := by push_cast; ring
      rw [hc]
      exact hdist k hk
    have hcl := linkedList_closed_fwd data start dim clockwise n _ (fun k => rfl)
      hdim (by omega) hcw
    have hlen :
        (linkedList data start (start + (n : Int) * dim) dim clockwise none []).1.length = n := by
      rw [hcl]
      split
      · dsimp only
        rw [removeNode_length, ringArena_length]
      · dsimp only
        rw [ringArena_length]
    intro p hplen hguard
    rw [hlen] at hplen
    rw [hcl] at hguard ⊢
    split
    · rename_i hco
      rw [if_pos hco] at hguard
      dsimp only at hguard ⊢
      by_cases hn2 : n = 2
      · exfalso
        subst hn2
        have e1 : start + (((0 : Nat) : Int) + 1) * dim = start + ((2 - 1 : Nat) : Int) * dim := by
          push_cast; ring
        refine hdist 0 (by omega) ⟨?_, ?_⟩
        · rw [e1]
          exact hco.1.symm
        · rw [e1]
          exact hco.2.symm
      · exact removeNode_ring_no_coincident _ n (by omega) hAdjF hco p hplen hguard
    · rename_i hco
      dsimp only
      exact ringArena_no_coincident _ n hAdjF hco p hplen
  · have hAdjR : ∀ k : Nat, k + 1 < n →
        ¬(dget data (start + ((n - 1 - k : Nat) : Int) * dim) =
            dget data (start + ((n - 1 - (k + 1) : Nat) : Int) * dim) ∧
          dget data (start + ((n - 1 - k : Nat) : Int) * dim + 1) =
            dget data (start + ((n - 1 - (k + 1) : Nat) : Int) * dim + 1)) := by
      intro k hk
      have h1 : ((n - 1 - k : Nat) : Int) = ((n - 2 - k : Nat) : Int) + 1 := by omega
      have h2 : ((n - 1 - (k + 1) : Nat) : Int) = ((n - 2 - k : Nat) : Int) := by omega
      rw [h1, h2]
      rintro ⟨a, b⟩
      exact hdist (n - 2 - k) (by omega) ⟨a.symm, b.symm⟩
    have hcl := linkedList_closed_rev data start dim clockwise n _ (fun k => rfl)
      hdim (by omega) hcw
    have hlen :
        (linkedList data start (start + (n : Int) * dim) dim clockwise none []).1.length = n := by
      rw [hcl]
      split
      · dsimp only
        rw [removeNode_length, ringArena_length]
      · dsimp only
        rw [ringArena_length]
    intro p hplen hguard
    rw [hlen] at hplen
    rw [hcl] at hguard ⊢
    split
    · rename_i hco
      rw [if_pos hco] at hguard
      dsimp only at hguard ⊢
      by_cases hn2 : n = 2
      · exfalso
        subst hn2
        have e1 : start + ((2 - 1 - (2 - 1) : Nat) : Int) * dim =
            start + ((0 : Nat) : Int) * dim := by norm_num
        have e2 : start + ((2 - 1 - 0 : Nat) : Int) * dim =
            start + (((0 : Nat) : Int) + 1) * dim := by norm_num
        have h1 := hco.1
        have h2 := hco.2
        rw [e1, e2] at h1 h2
        refine hdist 0 (by omega) ⟨?_, ?_⟩
        · exact h1
        · exact h2
      · exact removeNode_ring_no_coincident _ n (by omega) hAdjR hco p hplen hguard
    · rename_i hco
      dsimp only
      exact ringArena_no_coincident _ n hAdjR hco p hplen

/-- Witness for the amended C8 at the square: node 0 of the built ring is
not coincident with its successor. -/
theorem linkedList_no_coincident_consecutive_witness :
    equals (nd (linkedList [0, 0, 10, 0, 10, 10, 0, 10] 0
        (0 + ((4 : Nat) : Int) * 2) 2 true none []).1 0)
      (nd (linkedList [0, 0, 10, 0, 10, 10, 0, 10] 0
          (0 + ((4 : Nat) : Int) * 2) 2 true none []).1
        ((nd (linkedList [0, 0, 10, 0, 10, 10, 0, 10] 0
            (0 + ((4 : Nat) : Int) * 2) 2 true none []).1 0).next)) = false :=
  linkedList_no_coincident_consecutive [0, 0, 10, 0, 10, 10, 0, 10] 0 2 true 4
    (by decide) (by decide)
    (by
      intro k hk
      have h3 : k < 3 := by omega
      interval_cases k <;> decide)
    0 (by decide) (by decide)

end EarcutModel
